import Mathlib

/-!
Verification development for the uSwapExchange/zero swap frontend.

The Go sources are shallowly embedded here: Go strings are modelled as
lists of characters (`Str`), raw bytes as `Fin 256` (`Byte`), `big.Int`
values reached only through non-negative decimal strings as `Nat`, and the
exact binary floating-point values flowing through `strconv.ParseFloat` /
`math/big.Float` as rationals (the concrete inputs exercised by the spec's
scenarios are exactly representable, so the rational model agrees with the
float semantics on them).  Fallible Go functions returning `(T, error)`
are modelled with `Except`/`Option`.
-/

namespace Zero

/-- Go strings are byte strings; on the valid-Unicode fragment relevant
here we model them as lists of characters. -/
abbrev Str := List Char

/-- Raw bytes, as they appear in the crypto and base64 layers. -/
abbrev Byte := Fin 256

/-! ## Basic character helpers -/

/-- ASCII decimal digit test (mirrors the digit checks done implicitly by
`big.Int.SetString` and `strconv.ParseFloat` on the decimal fragment). -/
def isDigitChar (c : Char) : Bool := 48 ≤ c.toNat && c.toNat ≤ 57

/-- Numeric value of an ASCII digit. -/
def digitVal (c : Char) : Nat := c.toNat - 48

/-- ASCII digit character for a value below ten. -/
def digitChar (n : Nat) : Char := Char.ofNat (48 + n)

/-- ASCII whitespace test; model of the `unicode.IsSpace` class restricted
to the ASCII range used by `strings.TrimSpace` on the inputs at hand. -/
def isSpaceChar (c : Char) : Bool :=
  c = ' ' || c = '\t' || c = '\n' || c.toNat = 11 || c.toNat = 12 || c = '\r'

/-- Model of `strings.TrimSpace`: drop whitespace from both ends. -/
def trimSpace (s : Str) : Str :=
  ((s.dropWhile isSpaceChar).reverse.dropWhile isSpaceChar).reverse

/-- Model of Go's `strings.ToLower` on the ASCII fragment: map capital
letters to lowercase, leave everything else unchanged. -/
def lowerChar (c : Char) : Char :=
  if 65 ≤ c.toNat ∧ c.toNat ≤ 90 then Char.ofNat (c.toNat + 32) else c

/-- Lowercasing of a whole string. -/
def lowerStr (s : Str) : Str := s.map lowerChar

/-- Model of Go's `strings.ToUpper` on the ASCII fragment. -/
def upperChar (c : Char) : Char :=
  if 97 ≤ c.toNat ∧ c.toNat ≤ 122 then Char.ofNat (c.toNat - 32) else c

/-- Uppercasing of a whole string. -/
def upperStr (s : Str) : Str := s.map upperChar

/-- Model of `strings.HasPrefix`: the second list starts the first. -/
def leadsWith : Str → Str → Bool
  | _, [] => true
  | [], _ :: _ => false
  | c :: s, d :: t => c = d && leadsWith s t

/-- Model of `strings.Contains`: the needle occurs contiguously in the
haystack. -/
def containsSub : Str → Str → Bool
  | s, sub =>
    if leadsWith s sub then true
    else
      match s with
      | [] => false
      | _ :: rest => containsSub rest sub

/-! ## Decimal digit strings and numeric values -/

/-- Value of a digit string, most significant digit first (the reading
`big.Int.SetString` performs on an all-digit string). -/
def digitsVal (ds : Str) : Nat := ds.foldl (fun a c => a * 10 + digitVal c) 0

/-- Model of `big.Int.SetString(s, 10)` restricted to the non-negative
fragment the verified call sites feed it: succeeds exactly on a non-empty
all-digit string. -/
def parseDigits (s : Str) : Option Nat :=
  if s ≠ [] ∧ s.all isDigitChar then some (digitsVal s) else none

/-- Decimal rendering of a natural number, mirroring `big.Int.String` on
non-negative values (no leading zeros, and a bare zero renders as "0"). -/
def natToDigits (n : Nat) : Str :=
  if _h : n < 10 then [digitChar n]
  else natToDigits (n / 10) ++ [digitChar (n % 10)]
decreasing_by exact Nat.div_lt_self (by omega) (by omega)

/-- Model of splitting at the first dot, as `strings.SplitN(s, ".", 2)`
does: the part before the first dot, and (when a dot exists) everything
after it. -/
def splitDotFirst : Str → Str × Option Str
  | [] => ([], none)
  | c :: rest =>
    if c = '.' then ([], some rest)
    else
      let (w, f) := splitDotFirst rest
      (c :: w, f)

/-- Model of the decimal fragment of `strconv.ParseFloat` and
`big.Float.SetString`: an optional sign, digits, optionally a dot and more
digits, with at least one digit overall.  Exponent and hexadecimal forms
accepted by Go are outside the inputs exercised here and are omitted. -/
def parseDecimalRat (s : Str) : Option ℚ :=
  let signBody : ℚ × Str :=
    match s with
    | '-' :: t => (-1, t)
    | '+' :: t => (1, t)
    | t => (1, t)
  let (w, fOpt) := splitDotFirst signBody.2
  let f := fOpt.getD []
  if w.all isDigitChar ∧ f.all isDigitChar ∧ (w ≠ [] ∨ f ≠ []) then
    some (signBody.1 * ((digitsVal w : ℚ) + (digitsVal f : ℚ) / (10 : ℚ) ^ f.length))
  else none

/-- Truncation toward zero of a rational, mirroring `big.Float.Int64` on
in-range values. -/
def ratTrunc (q : ℚ) : Int :=
  if q < 0 then -(((-q).num.toNat / (-q).den : Nat) : Int)
  else ((q.num.toNat / q.den : Nat) : Int)

/-! ## src/amount.go: slippageToBPS -/

/-- Embedding of `slippageToBPS` (src/amount.go): trim, empty defaults to
100 bps, otherwise parse as a decimal number, multiply by 100, truncate to
an integer and range-check it against [1, 5000]. -/
def slippageToBPS (pct : Str) : Except String Int :=
  if trimSpace pct = [] then Except.ok 100
  else
    match parseDecimalRat (trimSpace pct) with
    | none => Except.error "invalid slippage"
    | some val =>
      if ratTrunc (val * 100) < 1 ∨ ratTrunc (val * 100) > 5000 then
        Except.error "slippage out of range"
      else Except.ok (ratTrunc (val * 100))

/-! ## src/unnamed/part_002: handleQuote slippage handling -/

/-- Embedding of the slippage lines of `handleQuote`
(src/unnamed/part_002): a failing `slippageToBPS` is not surfaced as a
validation error — the handler silently substitutes the default of 100
basis points and proceeds. -/
def handleQuoteSlippage (slippage : Str) : Int :=
  match slippageToBPS slippage with
  | Except.ok v => v
  | Except.error _ => 100

/-! ## src/unnamed/part_002: handleOrder status step -/

/-- Embedding of the status-step switch of `handleOrder`
(src/unnamed/part_002): maps the upstream status code to the progress step
shown on the order page and the terminal flag. -/
def statusStepTerminal (status : String) : Nat × Bool :=
  match status with
  | "PENDING_DEPOSIT" => (0, false)
  | "PROCESSING" => (1, false)
  | "SUCCESS" => (2, true)
  | "REFUNDED" => (2, true)
  | "FAILED" => (2, true)
  | "INCOMPLETE_DEPOSIT" => (2, true)
  | _ => (0, false)

/-! ## Theorems for C4 -/

/-- C4: the order status page maps PENDING_DEPOSIT and KNOWN_DEPOSIT_TX to
step 0 non-terminal, PROCESSING to step 1 non-terminal, and each of
SUCCESS, REFUNDED, FAILED, INCOMPLETE_DEPOSIT to step 2 terminal; no other
status is terminal.  (KNOWN_DEPOSIT_TX reaches the default branch of the
switch, which yields step 0 and non-terminal.) -/
theorem c4_status_step :
    statusStepTerminal "PENDING_DEPOSIT" = (0, false) ∧
    statusStepTerminal "KNOWN_DEPOSIT_TX" = (0, false) ∧
    statusStepTerminal "PROCESSING" = (1, false) ∧
    statusStepTerminal "SUCCESS" = (2, true) ∧
    statusStepTerminal "REFUNDED" = (2, true) ∧
    statusStepTerminal "FAILED" = (2, true) ∧
    statusStepTerminal "INCOMPLETE_DEPOSIT" = (2, true) ∧
    ∀ s : String, (statusStepTerminal s).2 = true ↔
      s = "SUCCESS" ∨ s = "REFUNDED" ∨ s = "FAILED" ∨ s = "INCOMPLETE_DEPOSIT" := by
  refine ⟨rfl, rfl, rfl, rfl, rfl, rfl, rfl, ?_⟩
  intro s
  unfold statusStepTerminal
  split <;> simp_all

/-! ## Theorems for C8 -/

/-- Truncation of a rational that is in fact a natural number. -/
theorem ratTrunc_natCast (n : Nat) : ratTrunc ((n : ℚ)) = n := by
  unfold ratTrunc
  rw [if_neg (not_lt.mpr (by positivity))]
  simp

/-- Evaluation of slippageToBPS on an in-range percentage string, staged so
that the parser runs by kernel reduction and the rational arithmetic is
settled by norm_num: the parsed value is given explicitly as q and its
scaled value as the natural number m. -/
theorem slippageToBPS_eval (s : Str) (q : ℚ) (m : Nat)
    (hne : trimSpace s ≠ []) (hp : parseDecimalRat (trimSpace s) = some q)
    (hm : q * 100 = (m : ℚ)) (hlo : 1 ≤ m) (hhi : m ≤ 5000) :
    slippageToBPS s = Except.ok (m : Int) := by
  unfold slippageToBPS
  rw [if_neg hne, hp]
  dsimp only
  rw [hm, ratTrunc_natCast]
  rw [if_neg (by omega)]

/-- Evaluation of slippageToBPS on an out-of-range percentage string. -/
theorem slippageToBPS_reject (s : Str) (q : ℚ) (m : Nat)
    (hne : trimSpace s ≠ []) (hp : parseDecimalRat (trimSpace s) = some q)
    (hm : q * 100 = (m : ℚ)) (hout : m < 1 ∨ 5000 < m) :
    slippageToBPS s = Except.error "slippage out of range" := by
  unfold slippageToBPS
  rw [if_neg hne, hp]
  dsimp only
  rw [hm, ratTrunc_natCast]
  rw [if_pos (by omega)]

/-- C8: slippageToBPS maps "1" to 100 and "0.5" to 50, rejects "51" as out
of the [1, 5000] basis-point range, and returns the default 100 for the
empty string. -/
theorem c8_slippage_bounds :
    slippageToBPS ("1".data) = Except.ok 100 ∧
    slippageToBPS ("0.5".data) = Except.ok 50 ∧
    slippageToBPS ("51".data) = Except.error "slippage out of range" ∧
    slippageToBPS ("".data) = Except.ok 100 := by
  refine ⟨?_, ?_, ?_, ?_⟩
  · have h := slippageToBPS_eval ("1".data)
      (1 * (((1 : Nat) : ℚ) + ((0 : Nat) : ℚ) / (10 : ℚ) ^ (0 : Nat))) 100
      (by decide) rfl (by push_cast; norm_num) (by norm_num) (by norm_num)
    simpa using h
  · have h := slippageToBPS_eval ("0.5".data)
      (1 * (((0 : Nat) : ℚ) + ((5 : Nat) : ℚ) / (10 : ℚ) ^ (1 : Nat))) 50
      (by decide) rfl (by push_cast; norm_num) (by norm_num) (by norm_num)
    simpa using h
  · exact slippageToBPS_reject ("51".data)
      (1 * (((51 : Nat) : ℚ) + ((0 : Nat) : ℚ) / (10 : ℚ) ^ (0 : Nat))) 5100
      (by decide) rfl (by push_cast; norm_num) (by norm_num)
  · rfl

/-! ## Theorems for C10 -/

/-- C10: when the slippage field of a preview-quote request is present but
invalid (unparseable or out of range), handleQuote does not reject the
request with a validation error — it substitutes the default of 100 basis
points and proceeds. -/
theorem c10_quote_slippage_default (s : Str) (e : String)
    (h : slippageToBPS s = Except.error e) : handleQuoteSlippage s = 100 := by
  unfold handleQuoteSlippage
  rw [h]

/-- C10 witness: the out-of-range slippage "51" is substituted by the
default 100 basis points. -/
theorem c10_quote_slippage_default_witness : handleQuoteSlippage ("51".data) = 100 :=
  c10_quote_slippage_default ("51".data) "slippage out of range"
    (slippageToBPS_reject ("51".data)
      (1 * (((51 : Nat) : ℚ) + ((0 : Nat) : ℚ) / (10 : ℚ) ^ (0 : Nat))) 5100
      (by decide) rfl (by push_cast; norm_num) (by norm_num))

/-! ## src/tokencache.go: the token cache -/

/-- Embedding of the `TokenInfo` struct (src/nearintents.go), restricted
to the fields the cache layer reads; `price` (a float64) is modelled as a
rational. -/
structure TokenInfo where
  defuseAssetID : String
  ticker : String
  symbol : String
  name : String
  decimals : Nat
  chainName : String
  price : ℚ
deriving DecidableEq

/-- The ticker normalisation applied by `refreshTokenCache`
(src/tokencache.go) to each fetched token before it is stored: an empty
ticker is backfilled from the symbol, then the ticker is uppercased. -/
def normalizeToken (t : TokenInfo) : TokenInfo :=
  let t := if t.ticker = "" ∧ t.symbol ≠ "" then { t with ticker := t.symbol } else t
  { t with ticker := String.mk (upperStr t.ticker.data) }

/-- The cache TTL (src/tokencache.go): five minutes, in nanoseconds as a
Go `time.Duration` holds it. -/
def tokenCacheTTL : Nat := 5 * 60 * 1000000000

/-- Mutable state of the token cache relevant to `getTokens`: the stored
snapshot and the wall-clock instant of the last successful refresh
(nanoseconds). -/
structure TokenCacheState where
  tokens : List TokenInfo
  updatedAt : Nat

/-- Embedding of `getTokens` (src/tokencache.go).  The wall clock and the
outcome of the network fetch inside `refreshTokenCache` are passed as
explicit inputs (`none` models a failed fetch).  A fresh snapshot is
within TTL and non-empty; otherwise a refresh is attempted, a failed
refresh falls back to a non-empty stale snapshot, and only an empty cache
propagates the refresh error. -/
def getTokens (st : TokenCacheState) (now : Nat) (fetched : Option (List TokenInfo)) :
    Except Unit (List TokenInfo) × TokenCacheState :=
  if now - st.updatedAt < tokenCacheTTL ∧ 0 < st.tokens.length then
    (Except.ok st.tokens, st)
  else
    match fetched with
    | none =>
      if 0 < st.tokens.length then (Except.ok st.tokens, st)
      else (Except.error (), st)
    | some ts =>
      ((Except.ok (ts.map normalizeToken)),
        { tokens := ts.map normalizeToken, updatedAt := now })

/-! ## Theorems for C5 -/

/-- C5: when the cache snapshot is older than the 5-minute TTL and the
refresh attempt fails, getTokens returns the previous snapshot with no
error whenever that snapshot is non-empty, and fails only when no previous
snapshot exists. -/
theorem c5_stale_cache (st : TokenCacheState) (now : Nat)
    (hstale : tokenCacheTTL ≤ now - st.updatedAt) :
    (st.tokens ≠ [] → (getTokens st now none).1 = Except.ok st.tokens) ∧
    (st.tokens = [] → (getTokens st now none).1 = Except.error ()) := by
  unfold getTokens
  rw [if_neg (fun h => absurd h.1 (by omega))]
  constructor
  · intro hne
    rw [if_pos (List.length_pos.mpr hne)]
  · intro he
    rw [if_neg (by simp [he])]

/-- C5 witness: a concrete stale cache with one token is served stale on a
failed refresh, and a concrete empty stale cache propagates the failure. -/
theorem c5_stale_cache_witness :
    (getTokens ⟨[⟨"id", "T", "T", "Token", 8, "eth", 0⟩], 0⟩ tokenCacheTTL none).1 =
      Except.ok [⟨"id", "T", "T", "Token", 8, "eth", 0⟩] ∧
    (getTokens ⟨[], 0⟩ tokenCacheTTL none).1 = Except.error () := by
  constructor
  · exact (c5_stale_cache ⟨[⟨"id", "T", "T", "Token", 8, "eth", 0⟩], 0⟩
      tokenCacheTTL (by simp)).1 (by simp)
  · exact (c5_stale_cache ⟨[], 0⟩ tokenCacheTTL (by simp)).2 rfl

/-! ## src/main.go: the request rate limiter -/

/-- Embedding of `rateBucket` (src/main.go): a counter and the instant at
which the window expires. -/
structure RateBucket where
  count : Nat
  resetAt : Nat
deriving DecidableEq

/-- The limiter's counters map, modelled as an association list with
unique keys (Go map). -/
abbrev LimiterState := List (Str × RateBucket)

/-- Map lookup for the limiter state. -/
def lookupBucket : LimiterState → Str → Option RateBucket
  | [], _ => none
  | (k, b) :: rest, key => if k = key then some b else lookupBucket rest key

/-- Map insertion/replacement for the limiter state. -/
def setBucket : LimiterState → Str → RateBucket → LimiterState
  | [], key, b => [(key, b)]
  | (k, b') :: rest, key, b =>
    if k = key then (key, b) :: rest else (k, b') :: setBucket rest key b

/-- Index of the last dot in a string, mirroring `strings.LastIndex(ip, ".")`
(which yields -1, here `none`, when absent). -/
def lastDotIndex : Str → Option Nat
  | [] => none
  | c :: rest =>
    match lastDotIndex rest with
    | some i => some (i + 1)
    | none => if c = '.' then some 0 else none

/-- The client key used by `rateLimiter.allow` (src/main.go): the text
before the last dot when one exists at a positive index (the /24 IPv4
group), the whole identifier otherwise. -/
def bucketKey (ip : Str) : Str :=
  match lastDotIndex ip with
  | some idx => if 0 < idx then ip.take idx else ip
  | none => ip

/-- Embedding of `rateLimiter.allow` (src/main.go): create a bucket with
count 1 (admitting the call) when absent or expired, otherwise increment
and compare against the limit.  The wall clock is an explicit input. -/
def allow (st : LimiterState) (ip : Str) (limit win now : Nat) : Bool × LimiterState :=
  match lookupBucket st (bucketKey ip) with
  | none => (true, setBucket st (bucketKey ip) ⟨1, now + win⟩)
  | some b =>
    if b.resetAt < now then (true, setBucket st (bucketKey ip) ⟨1, now + win⟩)
    else (decide (b.count + 1 ≤ limit), setBucket st (bucketKey ip) ⟨b.count + 1, b.resetAt⟩)

/-- A sequence of calls to allow at the given instants, returning the
admission verdicts in order together with the final state. -/
def runAllow (ip : Str) (limit win : Nat) : LimiterState → List Nat → List Bool × LimiterState
  | st, [] => ([], st)
  | st, t :: ts =>
    (((allow st ip limit win t).1 ::
        (runAllow ip limit win (allow st ip limit win t).2 ts).1),
      (runAllow ip limit win (allow st ip limit win t).2 ts).2)

/-! ## Theorems for C7 -/

/-- Lookup after insertion into a singleton limiter state. -/
theorem lookupBucket_single (key : Str) (b : RateBucket) :
    lookupBucket [(key, b)] key = some b := by simp [lookupBucket]

/-- Replacement in a singleton limiter state. -/
theorem setBucket_single (key : Str) (b b' : RateBucket) :
    setBucket [(key, b)] key b' = [(key, b')] := by simp [setBucket]

/-- While every call benefits from an unexpired bucket and the counter
stays within the limit, every call is admitted and the counter advances by
the number of calls. -/
theorem runAllow_under_limit (ip : Str) (limit win r : Nat) :
    ∀ (ts : List Nat) (c : Nat), (∀ t ∈ ts, t ≤ r) → c + ts.length ≤ limit →
      runAllow ip limit win [(bucketKey ip, ⟨c, r⟩)] ts =
        (List.replicate ts.length true, [(bucketKey ip, ⟨c + ts.length, r⟩)]) := by
  intro ts
  induction ts with
  | nil => intro c _ _; simp [runAllow]
  | cons t ts ih =>
    intro c hin hc
    rw [List.length_cons] at hc
    have ht : t ≤ r := hin t (by simp)
    have hcall : allow [(bucketKey ip, ⟨c, r⟩)] ip limit win t =
        (true, [(bucketKey ip, ⟨c + 1, r⟩)]) := by
      unfold allow
      rw [lookupBucket_single]
      dsimp only
      rw [if_neg (by omega), setBucket_single]
      simp
      omega
    have hrest := ih (c + 1) (fun x hx => hin x (by simp [hx])) (by omega)
    simp only [runAllow, hcall, hrest]
    simp [List.replicate_succ]
    omega

/-- Results of running calls split across a concatenation of instants. -/
theorem runAllow_append (ip : Str) (limit win : Nat) (st : LimiterState)
    (as bs : List Nat) :
    runAllow ip limit win st (as ++ bs) =
      ((runAllow ip limit win st as).1 ++
        (runAllow ip limit win (runAllow ip limit win st as).2 bs).1,
       (runAllow ip limit win (runAllow ip limit win st as).2 bs).2) := by
  induction as generalizing st with
  | nil => simp [runAllow]
  | cons a as ih => simp [runAllow, ih]

/-- C7 amended: for every client identifier, limit k at least 1, and
window w, the first k calls to allow made within w of the first call
return true, the (k+1)-th call within the same window returns false, and a
call made more than w after the first call resets the bucket and is
admitted as the first call of a new window. -/
theorem c7_limiter_window (ip : Str) (k win t1 t' : Nat) (ts : List Nat)
    (hk : 1 ≤ k) (hlen : ts.length = k)
    (hin : ∀ t ∈ ts, t ≤ t1 + win) (hlate : t1 + win < t') :
    (runAllow ip k win [] (t1 :: ts)).1 = List.replicate k true ++ [false] ∧
    (allow (runAllow ip k win [] (t1 :: ts)).2 ip k win t').1 = true := by
  have hne : ts ≠ [] := by intro h; rw [h] at hlen; simp at hlen; omega
  have hfirst : allow [] ip k win t1 = (true, [(bucketKey ip, ⟨1, t1 + win⟩)]) := by
    unfold allow
    simp [lookupBucket, setBucket]
  have hsplit : ts.dropLast ++ [ts.getLast hne] = ts := List.dropLast_append_getLast hne
  have hlen' : ts.dropLast.length = k - 1 := by
    rw [List.length_dropLast, hlen]
  have hbody := runAllow_under_limit ip k win (t1 + win) ts.dropLast 1
    (fun x hx => hin x (List.dropLast_subset ts hx)) (by omega)
  rw [hlen'] at hbody
  have hlast : allow [(bucketKey ip, ⟨1 + (k - 1), t1 + win⟩)] ip k win
      (ts.getLast hne) = (false, [(bucketKey ip, ⟨1 + (k - 1) + 1, t1 + win⟩)]) := by
    unfold allow
    rw [lookupBucket_single]
    dsimp only
    rw [if_neg (by have := hin (ts.getLast hne) (List.getLast_mem hne); omega),
      setBucket_single]
    simp
    omega
  have hrun : runAllow ip k win [] (t1 :: ts) =
      (true :: (List.replicate (k - 1) true ++ [false]),
        [(bucketKey ip, ⟨1 + (k - 1) + 1, t1 + win⟩)]) := by
    simp only [runAllow, hfirst]
    rw [← hsplit, runAllow_append, hbody]
    simp only [runAllow, hlast]
  refine ⟨?_, ?_⟩
  · rw [hrun]
    have : List.replicate k true = true :: List.replicate (k - 1) true := by
      have hk' : k = (k - 1) + 1 := by omega
      rw [hk', List.replicate_succ]
      simp
    rw [this]
    simp
  · rw [hrun]
    dsimp only
    unfold allow
    rw [lookupBucket_single]
    dsimp only
    rw [if_pos (by omega)]

/-- C7 witness: with limit 2 and window 10, calls at instants 0, 3, 7
yield true, true, false, and a later call at instant 11 is admitted
again. -/
theorem c7_limiter_window_witness :
    (runAllow ("1.2.3.4".data) 2 10 [] [0, 3, 7]).1 =
      List.replicate 2 true ++ [false] ∧
    (allow (runAllow ("1.2.3.4".data) 2 10 [] [0, 3, 7]).2 ("1.2.3.4".data) 2 10 11).1 =
      true :=
  c7_limiter_window ("1.2.3.4".data) 2 10 0 11 [3, 7] (by decide) (by decide)
    (by decide) (by decide)

/-- C7 counterexample: with limit 0 the very first call — which the claim,
read at k = 0, requires to be rejected — is admitted, because a fresh
bucket is created with count 1 and the call returns true without
consulting the limit. -/
theorem c7_limiter_zero_counterexample :
    ¬ ((runAllow ("1.2.3.4".data) 0 60 [] [5]).1 =
        List.replicate 0 true ++ [false]) := by decide

/-! ## src/tokencache.go: searchTokens -/

/-- Embedding of the result-accumulating loop of `searchTokens`
(src/tokencache.go): a token is kept when the lowered query occurs in its
lowered ticker, name, or chain field (the raw blockchain code as stored on
the descriptor). -/
def searchLoop : List TokenInfo → Str → List TokenInfo
  | [], _ => []
  | t :: rest, q =>
    if containsSub (lowerStr t.ticker.data) q || containsSub (lowerStr t.name.data) q ||
        containsSub (lowerStr t.chainName.data) q then
      t :: searchLoop rest q
    else searchLoop rest q

/-- Embedding of `searchTokens` (src/tokencache.go): an empty query
returns the whole snapshot, otherwise the matching loop runs over the
lowered query. -/
def searchTokens (tokens : List TokenInfo) (query : Str) : List TokenInfo :=
  if query = [] then tokens
  else searchLoop tokens (lowerStr query)

/-- The chain-code-to-display-name dictionary of `refreshTokenCache`
(src/tokencache.go), with the fallback used there: an unmapped code is
left unchanged. -/
def chainDisplayName (code : String) : String :=
  let c := String.mk (lowerStr code.data)
  if c = "eth" then "Ethereum" else if c = "btc" then "Bitcoin"
  else if c = "sol" then "Solana" else if c = "base" then "Base"
  else if c = "arb" then "Arbitrum" else if c = "ton" then "TON"
  else if c = "tron" then "TRON" else if c = "bsc" then "BNB Chain"
  else if c = "pol" then "Polygon" else if c = "op" then "Optimism"
  else if c = "avax" then "Avalanche" else if c = "near" then "NEAR"
  else if c = "sui" then "Sui" else if c = "apt" then "Aptos"
  else if c = "aptos" then "Aptos" else if c = "doge" then "Dogecoin"
  else if c = "ltc" then "Litecoin" else if c = "xrp" then "XRP"
  else if c = "bch" then "Bitcoin Cash" else if c = "xlm" then "Stellar"
  else if c = "stellar" then "Stellar" else if c = "zec" then "Zcash"
  else if c = "cardano" then "Cardano" else if c = "starknet" then "StarkNet"
  else if c = "gnosis" then "Gnosis" else if c = "bera" then "Berachain"
  else if c = "monad" then "Monad" else if c = "plasma" then "Plasma"
  else if c = "xlayer" then "X Layer" else if c = "aleo" then "Aleo"
  else if c = "adi" then "ADI" else code

/-- Modelled from the spec's words for C9: the descriptors for which the
query is a case-insensitive substring of the ticker, the name, or the
chain display name (for example "Ethereum" for chain code "eth"), in
snapshot order. -/
def searchTokensSpecC9 (tokens : List TokenInfo) (query : Str) : List TokenInfo :=
  tokens.filter (fun t =>
    containsSub (lowerStr t.ticker.data) (lowerStr query) ||
    containsSub (lowerStr t.name.data) (lowerStr query) ||
    containsSub (lowerStr (chainDisplayName t.chainName).data) (lowerStr query))

/-! ## Theorems for C9 -/

/-- An empty needle occurs in every haystack. -/
theorem containsSub_nil (s : Str) : containsSub s [] = true := by
  cases s <;> simp [containsSub, leadsWith]

/-- C9 counterexample: on a snapshot holding one token whose stored chain
field is the code "eth", the query "ethereum" matches the chain display
name the claim describes, yet searchTokens returns nothing, because the
code matches against the raw chain code and "eth" does not contain
"ethereum". -/
theorem c9_search_counterexample :
    searchTokens [⟨"nep141:abc", "ABC", "ABC", "AlphaCoin", 18, "eth", 0⟩]
        ("ethereum".data) ≠
      searchTokensSpecC9 [⟨"nep141:abc", "ABC", "ABC", "AlphaCoin", 18, "eth", 0⟩]
        ("ethereum".data) := by
  decide

/-- C9 amended: for every query and frozen snapshot, searchTokens returns
exactly the descriptors for which the query is a case-insensitive
substring of the ticker, the name, or the raw chain code stored on the
descriptor (not the chain display name), in snapshot order. -/
theorem c9_search_amended (tokens : List TokenInfo) (query : Str) :
    searchTokens tokens query = tokens.filter (fun t =>
      containsSub (lowerStr t.ticker.data) (lowerStr query) ||
      containsSub (lowerStr t.name.data) (lowerStr query) ||
      containsSub (lowerStr t.chainName.data) (lowerStr query)) := by
  unfold searchTokens
  split
  · next hq =>
    subst hq
    simp only [lowerStr, List.map_nil]
    induction tokens with
    | nil => simp
    | cons t ts ih =>
      rw [List.filter_cons, if_pos (by simp [containsSub_nil])]
      rw [← ih]
  · induction tokens with
    | nil => simp [searchLoop]
    | cons t ts ih =>
      rw [List.filter_cons]
      unfold searchLoop
      cases hm : (containsSub (lowerStr t.ticker.data) (lowerStr query) ||
          containsSub (lowerStr t.name.data) (lowerStr query) ||
          containsSub (lowerStr t.chainName.data) (lowerStr query)) with
      | true => simp only [hm, if_true, ih]
      | false => simp only [hm, if_false, ih, Bool.false_eq_true]

/-! ## src/explorer.go and src/main.go: the competitor monitor fold -/

/-- Embedding of `ExplorerAppFee` (src/explorer.go): an application-fee
entry with its recipient and fee in basis points (a Go int). -/
structure ExplorerAppFee where
  recipient : String
  fee : Int
deriving DecidableEq

/-- Embedding of `ExplorerTx` (src/explorer.go), restricted to the fields
the monitor fold reads; the remaining fields are presentation-only
pass-through data. -/
structure ExplorerTx where
  depositAddress : String
  depositMemo : String
  status : String
  amountInUsd : String
  appFees : List ExplorerAppFee
deriving DecidableEq

/-- The basis-point accumulation loop at the top of `txFeeUSD`
(src/explorer.go). -/
def txBps (tx : ExplorerTx) : Int :=
  tx.appFees.foldl (fun a f => a + f.fee) 0

/-- Embedding of `txFeeUSD` (src/explorer.go): zero when the aggregated
basis points are zero or amountInUsd does not parse or parses to zero,
otherwise amountInUsd times the basis points over 10000.  The float64
arithmetic of the source is modelled exactly over the rationals. -/
def txFeeUSD (tx : ExplorerTx) : ℚ :=
  if txBps tx = 0 then 0
  else
    match parseDecimalRat (trimSpace tx.amountInUsd.data) with
    | none => 0
    | some inUsd => if inUsd = 0 then 0 else inUsd * ((txBps tx : ℤ) : ℚ) / 10000

/-- Embedding of `LiveStats` (src/main.go): running totals for one
reseller. -/
structure LiveStats where
  feeUSD : ℚ
  volumeUSD : ℚ
  swapCount : Nat
deriving DecidableEq

/-- Embedding of `LiveStats.add` (src/main.go). -/
def LiveStats.add (s : LiveStats) (fee vol : ℚ) : LiveStats :=
  ⟨s.feeUSD + fee, s.volumeUSD + vol, s.swapCount + 1⟩

/-- Embedding of `monitorCursor` (src/main.go): the explorer pagination
cursor. -/
structure MonitorCursor where
  lastAddr : String
  lastMemo : String
deriving DecidableEq

/-- The per-transaction body of the poller loop in `runResellerPoller`
(src/main.go), restricted to the state it folds: compute the fee, parse
the USD volume (a parse failure leaves the Go zero value), add both to the
stats, and advance the cursor to this transaction's address/memo pair. -/
def foldTx (st : LiveStats × MonitorCursor) (tx : ExplorerTx) : LiveStats × MonitorCursor :=
  (st.1.add (txFeeUSD tx) ((parseDecimalRat (trimSpace tx.amountInUsd.data)).getD 0),
    ⟨tx.depositAddress, tx.depositMemo⟩)

/-- Folding a fetched batch in explorer order, as the poller loop does. -/
def foldTxs (st : LiveStats × MonitorCursor) (txs : List ExplorerTx) :
    LiveStats × MonitorCursor :=
  txs.foldl foldTx st

/-- The first concrete transaction of scenario S8: a single 150 bps app
fee on a 1000-dollar amountInUsd. -/
def monitorTxA : ExplorerTx :=
  ⟨"addr1", "memo1", "SUCCESS", "1000", [⟨"uswap.near", 150⟩]⟩

/-- The second concrete transaction of scenario S8: a single 200 bps app
fee on a 500-dollar amountInUsd. -/
def monitorTxB : ExplorerTx :=
  ⟨"addr2", "memo2", "SUCCESS", "500", [⟨"uswap.near", 200⟩]⟩

/-! ## Theorems for C6 -/

/-- The fee formula of txFeeUSD on the non-degenerate path: a parseable
non-zero USD amount and a non-zero basis-point sum yield the product over
10000. -/
theorem txFeeUSD_formula (tx : ExplorerTx) (q : ℚ)
    (hp : parseDecimalRat (trimSpace tx.amountInUsd.data) = some q)
    (hq : q ≠ 0) (hbps : txBps tx ≠ 0) :
    txFeeUSD tx = q * ((txBps tx : ℤ) : ℚ) / 10000 := by
  unfold txFeeUSD
  rw [if_neg hbps, hp]
  dsimp only
  rw [if_neg hq]

/-- The degenerate paths of txFeeUSD all yield a zero fee. -/
theorem txFeeUSD_zero (tx : ExplorerTx)
    (h : txBps tx = 0 ∨ parseDecimalRat (trimSpace tx.amountInUsd.data) = none ∨
      parseDecimalRat (trimSpace tx.amountInUsd.data) = some 0) :
    txFeeUSD tx = 0 := by
  unfold txFeeUSD
  rcases h with h | h | h
  · rw [if_pos h]
  · split
    · rfl
    · rw [h]
  · split
    · rfl
    · rw [h]
      dsimp only
      rw [if_pos rfl]

/-- Fee of the first S8 transaction: 150 bps of 1000 dollars is 15. -/
theorem txFeeUSD_monitorTxA : txFeeUSD monitorTxA = 15 := by
  have h := txFeeUSD_formula monitorTxA
    (1 * (((1000 : Nat) : ℚ) + ((0 : Nat) : ℚ) / (10 : ℚ) ^ (0 : Nat)))
    rfl (by push_cast; norm_num) (by decide)
  rw [h, show txBps monitorTxA = 150 from rfl]
  push_cast
  norm_num

/-- Fee of the second S8 transaction: 200 bps of 500 dollars is 10. -/
theorem txFeeUSD_monitorTxB : txFeeUSD monitorTxB = 10 := by
  have h := txFeeUSD_formula monitorTxB
    (1 * (((500 : Nat) : ℚ) + ((0 : Nat) : ℚ) / (10 : ℚ) ^ (0 : Nat)))
    rfl (by push_cast; norm_num) (by decide)
  rw [h, show txBps monitorTxB = 200 from rfl]
  push_cast
  norm_num

/-- C6: folding the two S8 transactions into zeroed stats yields fee 25,
volume 1500 and swap count 2, with the cursor left at the second
transaction's address/memo pair; and in general the fee of a transaction
is its basis-point sum over 10000 times the parsed amountInUsd, zero when
the sum is zero or the amount is zero or unparseable. -/
theorem c6_monitor_fold :
    (foldTxs (⟨0, 0, 0⟩, ⟨"", ""⟩) [monitorTxA, monitorTxB]).1.feeUSD = 25 ∧
    (foldTxs (⟨0, 0, 0⟩, ⟨"", ""⟩) [monitorTxA, monitorTxB]).1.volumeUSD = 1500 ∧
    (foldTxs (⟨0, 0, 0⟩, ⟨"", ""⟩) [monitorTxA, monitorTxB]).1.swapCount = 2 ∧
    (foldTxs (⟨0, 0, 0⟩, ⟨"", ""⟩) [monitorTxA, monitorTxB]).2 = ⟨"addr2", "memo2"⟩ ∧
    (∀ tx q, parseDecimalRat (trimSpace tx.amountInUsd.data) = some q → q ≠ 0 →
      txBps tx ≠ 0 → txFeeUSD tx = q * ((txBps tx : ℤ) : ℚ) / 10000) ∧
    (∀ tx, (txBps tx = 0 ∨ parseDecimalRat (trimSpace tx.amountInUsd.data) = none ∨
      parseDecimalRat (trimSpace tx.amountInUsd.data) = some 0) → txFeeUSD tx = 0) := by
  refine ⟨?_, ?_, ?_, rfl, txFeeUSD_formula, txFeeUSD_zero⟩
  · simp only [foldTxs, List.foldl, foldTx, LiveStats.add]
    rw [txFeeUSD_monitorTxA, txFeeUSD_monitorTxB]
    norm_num
  · simp only [foldTxs, List.foldl, foldTx, LiveStats.add]
    rw [show parseDecimalRat (trimSpace (monitorTxA.amountInUsd.data)) =
        some (1 * (((1000 : Nat) : ℚ) + ((0 : Nat) : ℚ) / (10 : ℚ) ^ (0 : Nat))) from rfl,
      show parseDecimalRat (trimSpace (monitorTxB.amountInUsd.data)) =
        some (1 * (((500 : Nat) : ℚ) + ((0 : Nat) : ℚ) / (10 : ℚ) ^ (0 : Nat))) from rfl]
    push_cast
    norm_num
  · rfl

/-- C6 witness: the general fee clauses applied at the concrete S8
transactions — the formula clause at the first transaction and the zero
clause at a fee-free variant of it. -/
theorem c6_monitor_fold_witness :
    txFeeUSD monitorTxA =
      (1 * (((1000 : Nat) : ℚ) + ((0 : Nat) : ℚ) / (10 : ℚ) ^ (0 : Nat))) *
        ((txBps monitorTxA : ℤ) : ℚ) / 10000 ∧
    txFeeUSD ⟨"addr1", "memo1", "SUCCESS", "1000", []⟩ = 0 :=
  ⟨c6_monitor_fold.2.2.2.2.1 monitorTxA
      (1 * (((1000 : Nat) : ℚ) + ((0 : Nat) : ℚ) / (10 : ℚ) ^ (0 : Nat)))
      rfl (by push_cast; norm_num) (by decide),
    c6_monitor_fold.2.2.2.2.2 ⟨"addr1", "memo1", "SUCCESS", "1000", []⟩
      (Or.inl (by decide))⟩

/-! ## src/amount.go: humanToAtomic and atomicToHuman -/

/-- Test for the zero digit, used by the zero-trimming operations. -/
def isZero (c : Char) : Bool := c == '0'

/-- Model of `strings.TrimRight(s, "0")`: drop trailing zero digits. -/
def trimRightZeros (s : Str) : Str := (s.reverse.dropWhile isZero).reverse

/-- Model of the zero-padding `fmt.Sprintf` with a star width performs in
`atomicToHuman`: pad on the left with zero digits up to the width. -/
def leftPadZeros (d : Nat) (s : Str) : Str := List.replicate (d - s.length) '0' ++ s

/-- Embedding of `humanToAtomic` (src/amount.go): trim, reject empty,
split at the first dot as `strings.SplitN(amount, ".", 2)` does (so the
multiple-dot error of the source is unreachable and a second dot is left
inside the fractional part, where the integer parse rejects it), default
an empty whole part to "0", truncate or right-pad the fractional part to
exactly the token's decimals, and parse the concatenation as a base-10
integer rendered back without leading zeros. -/
def humanToAtomic (amount : Str) (decimals : Nat) : Except String Str :=
  if trimSpace amount = [] then Except.error "empty amount"
  else
    match parseDigits
      ((if (splitDotFirst (trimSpace amount)).1 = [] then ['0']
        else (splitDotFirst (trimSpace amount)).1) ++
       (if decimals < ((splitDotFirst (trimSpace amount)).2.getD []).length then
          ((splitDotFirst (trimSpace amount)).2.getD []).take decimals
        else ((splitDotFirst (trimSpace amount)).2.getD []) ++
          List.replicate (decimals - ((splitDotFirst (trimSpace amount)).2.getD []).length) '0')) with
    | none => Except.error "invalid amount"
    | some n => Except.ok (natToDigits n)

/-- Embedding of `atomicToHuman` (src/amount.go): an unparseable input
renders as "0"; zero decimals render the integer directly; otherwise the
value splits into quotient and remainder by 10^decimals, a zero remainder
renders the quotient alone, and a non-zero remainder is zero-padded to the
width, trimmed of trailing zeros, and appended after a dot. -/
def atomicToHuman (atomic : Str) (decimals : Nat) : Str :=
  match parseDigits atomic with
  | none => ['0']
  | some val =>
    if decimals = 0 then natToDigits val
    else if val % 10 ^ decimals = 0 then natToDigits (val / 10 ^ decimals)
    else
      natToDigits (val / 10 ^ decimals) ++ ['.'] ++
        trimRightZeros (leftPadZeros decimals (natToDigits (val % 10 ^ decimals)))

/-- Modelled from the claim's words for C3: the canonical form of a
non-negative decimal string — leading zeros of the integer part removed
(leaving a single "0" when nothing remains), trailing zeros of the
fractional part removed, and the decimal point dropped when the fractional
part becomes empty. -/
def canonicalize (x : Str) : Str :=
  if trimRightZeros ((splitDotFirst x).2.getD []) = [] then
    (if (splitDotFirst x).1.dropWhile isZero = [] then ['0']
     else (splitDotFirst x).1.dropWhile isZero)
  else
    (if (splitDotFirst x).1.dropWhile isZero = [] then ['0']
     else (splitDotFirst x).1.dropWhile isZero) ++ ['.'] ++
      trimRightZeros ((splitDotFirst x).2.getD [])

/-- Well-formedness for C3, read off the claim: a non-empty string of
digits with at most one decimal point. -/
def decimalWF (x : Str) : Prop :=
  x ≠ [] ∧ (∀ c ∈ x, isDigitChar c = true ∨ c = '.') ∧ x.count '.' ≤ 1

instance (x : Str) : Decidable (decimalWF x) := by
  unfold decimalWF
  infer_instance

/-! ## Digit-string lemmas -/

/-- Characters built from small codes read back their code. -/
theorem charToNat_ofNat (n : Nat) (h : n < 55296) : (Char.ofNat n).toNat = n := by
  unfold Char.ofNat
  rw [dif_pos (Or.inl (by omega))]
  simp [Char.toNat, Char.ofNatAux, UInt32.toNat, BitVec.toNat_ofNatLt]

/-- Characters with equal codes are equal. -/
theorem char_eq_of_toNat (c d : Char) (h : c.toNat = d.toNat) : c = d :=
  Char.ext (UInt32.ext h)

/-- The digit character of a digit value below ten reads back its value. -/
theorem digitVal_digitChar (n : Nat) (h : n < 10) : digitVal (digitChar n) = n := by
  unfold digitVal digitChar
  rw [charToNat_ofNat (48 + n) (by omega)]
  omega

/-- Digit characters are digits. -/
theorem isDigitChar_digitChar (n : Nat) (h : n < 10) : isDigitChar (digitChar n) = true := by
  unfold isDigitChar digitChar
  rw [charToNat_ofNat (48 + n) (by omega)]
  simp
  omega

/-- A digit character is recovered from its value. -/
theorem digitChar_digitVal (c : Char) (h : isDigitChar c = true) : digitChar (digitVal c) = c := by
  unfold isDigitChar at h
  simp at h
  apply char_eq_of_toNat
  unfold digitChar digitVal
  rw [charToNat_ofNat (48 + (c.toNat - 48)) (by omega)]
  omega

/-- A digit value is below ten. -/
theorem digitVal_lt_ten (c : Char) (h : isDigitChar c = true) : digitVal c < 10 := by
  unfold isDigitChar at h
  simp at h
  unfold digitVal
  omega

/-- Folding the digit accumulator from an arbitrary start scales the start
by the weight of the remaining digits. -/
theorem digitsVal_foldl (ds : Str) :
    ∀ a : Nat, ds.foldl (fun a c => a * 10 + digitVal c) a =
      a * 10 ^ ds.length + digitsVal ds := by
  induction ds with
  | nil => intro a; simp [digitsVal]
  | cons c ds ih =>
    intro a
    show List.foldl _ (a * 10 + digitVal c) ds = _
    rw [ih (a * 10 + digitVal c)]
    have hv : digitsVal (c :: ds) = digitVal c * 10 ^ ds.length + digitsVal ds := by
      show List.foldl _ (0 * 10 + digitVal c) ds = _
      rw [ih (0 * 10 + digitVal c)]
      ring
    rw [hv]
    simp [List.length_cons]
    ring

/-- Value of the leading digit and the rest. -/
theorem digitsVal_cons (c : Char) (ds : Str) :
    digitsVal (c :: ds) = digitVal c * 10 ^ ds.length + digitsVal ds := by
  show List.foldl _ (0 * 10 + digitVal c) ds = _
  rw [digitsVal_foldl ds (0 * 10 + digitVal c)]
  ring

/-- Value of a concatenation of digit strings. -/
theorem digitsVal_append (a b : Str) :
    digitsVal (a ++ b) = digitsVal a * 10 ^ b.length + digitsVal b := by
  unfold digitsVal
  rw [List.foldl_append]
  exact digitsVal_foldl b (List.foldl _ 0 a)

/-- The value of an all-digit string is below the weight of its length. -/
theorem digitsVal_lt (ds : Str) (h : ds.all isDigitChar = true) :
    digitsVal ds < 10 ^ ds.length := by
  induction ds with
  | nil => simp [digitsVal]
  | cons c ds ih =>
    simp only [List.all_cons, Bool.and_eq_true] at h
    have h1 := digitVal_lt_ten c h.1
    have h2 := ih h.2
    rw [digitsVal_cons, List.length_cons, pow_succ]
    calc digitVal c * 10 ^ ds.length + digitsVal ds
        < digitVal c * 10 ^ ds.length + 10 ^ ds.length := by omega
      _ = (digitVal c + 1) * 10 ^ ds.length := by ring
      _ ≤ 10 ^ ds.length * 10 := by
          rw [Nat.mul_comm (10 ^ ds.length) 10]
          exact Nat.mul_le_mul_right _ (by omega)

/-- A string of zero digits has value zero. -/
theorem digitsVal_replicate_zeros (n : Nat) : digitsVal (List.replicate n '0') = 0 := by
  induction n with
  | zero => simp [digitsVal]
  | succ n ih =>
    rw [List.replicate_succ, digitsVal_cons, ih]
    simp [digitVal]

/-- An all-digit string has value zero exactly when all its digits are
zero. -/
theorem digitsVal_eq_zero_iff (ds : Str) (h : ds.all isDigitChar = true) :
    digitsVal ds = 0 ↔ ∀ c ∈ ds, c = '0' := by
  induction ds with
  | nil => simp [digitsVal]
  | cons c ds ih =>
    simp only [List.all_cons, Bool.and_eq_true] at h
    rw [digitsVal_cons]
    constructor
    · intro h0
      have hp : 0 < 10 ^ ds.length := pow_pos (by omega) ds.length
      have hd : digitVal c = 0 := by
        by_contra hne
        have h1 : 1 ≤ digitVal c := Nat.one_le_iff_ne_zero.mpr hne
        have h2 : 10 ^ ds.length ≤ digitVal c * 10 ^ ds.length :=
          Nat.le_mul_of_pos_left _ h1
        omega
      have hrest0 : digitsVal ds = 0 := by
        rw [hd] at h0
        simpa using h0
      have hc : c = '0' := by
        apply char_eq_of_toNat
        unfold isDigitChar at h
        have := h.1
        simp at this
        unfold digitVal at hd
        show c.toNat = 48
        omega
      intro x hx
      rcases List.mem_cons.mp hx with rfl | hx'
      · exact hc
      · exact ((ih h.2).mp hrest0) x hx'
    · intro hall
      have hc : c = '0' := hall c (by simp)
      have hrest : digitsVal ds = 0 :=
        (ih h.2).mpr (fun x hx => hall x (List.mem_cons_of_mem c hx))
      rw [hrest, hc]
      simp [digitVal]

/-- The decimal rendering reads back to its value. -/
theorem digitsVal_natToDigits (n : Nat) : digitsVal (natToDigits n) = n := by
  induction n using Nat.strong_induction_on with
  | _ n ih =>
    unfold natToDigits
    split
    · next h =>
      rw [digitsVal_cons, digitVal_digitChar n h]
      simp [digitsVal]
    · next h =>
      rw [digitsVal_append]
      rw [ih (n / 10) (Nat.div_lt_self (by omega) (by omega))]
      rw [show digitsVal [digitChar (n % 10)] = digitVal (digitChar (n % 10)) by
        rw [digitsVal_cons]; simp [digitsVal]]
      rw [digitVal_digitChar (n % 10) (by omega)]
      simp
      omega

/-- The decimal rendering consists of digits. -/
theorem natToDigits_all (n : Nat) : (natToDigits n).all isDigitChar = true := by
  induction n using Nat.strong_induction_on with
  | _ n ih =>
    unfold natToDigits
    split
    · next h => simp [isDigitChar_digitChar n h]
    · next h =>
      rw [List.all_append]
      rw [ih (n / 10) (Nat.div_lt_self (by omega) (by omega))]
      simp [isDigitChar_digitChar (n % 10) (by omega)]

/-- The decimal rendering is never empty. -/
theorem natToDigits_ne_nil (n : Nat) : natToDigits n ≠ [] := by
  unfold natToDigits
  split
  · simp
  · simp

/-- The integer parse inverts the decimal rendering. -/
theorem parseDigits_natToDigits (n : Nat) : parseDigits (natToDigits n) = some n := by
  unfold parseDigits
  rw [if_pos ⟨natToDigits_ne_nil n, natToDigits_all n⟩, digitsVal_natToDigits]

/-- A digit string with a non-zero leading digit is recovered from its
value. -/
theorem natToDigits_of_digits (e : Char) (rest : Str)
    (hd : (e :: rest).all isDigitChar = true) (he : e ≠ '0') :
    natToDigits (digitsVal (e :: rest)) = e :: rest := by
  induction rest using List.reverseRecOn with
  | nil =>
    simp only [List.all_cons, Bool.and_eq_true] at hd
    have hlt := digitVal_lt_ten e hd.1
    unfold natToDigits
    rw [dif_pos (by rw [digitsVal_cons]; simpa [digitsVal] using hlt)]
    rw [show digitsVal [e] = digitVal e by rw [digitsVal_cons]; simp [digitsVal]]
    rw [digitChar_digitVal e hd.1]
  | append_singleton rest c ihr =>
    have hd' : (e :: rest).all isDigitChar = true := by
      simp only [List.all_cons, Bool.and_eq_true] at hd ⊢
      rcases hd with ⟨h1, h2⟩
      rw [List.all_append] at h2
      simp only [Bool.and_eq_true] at h2
      exact ⟨h1, h2.1⟩
    have hc : isDigitChar c = true := by
      simp only [List.all_cons, Bool.and_eq_true, List.all_append] at hd
      have := hd.2.2
      simpa using this
    have he1 : 1 ≤ digitVal e := by
      simp only [List.all_cons, Bool.and_eq_true] at hd
      have hdig := hd.1
      unfold isDigitChar at hdig
      simp at hdig
      unfold digitVal
      by_contra hlt
      have : e.toNat = 48 := by omega
      exact he (char_eq_of_toNat e '0' (by rw [this]; rfl))
    have hv0 : 10 ^ rest.length ≤ digitsVal (e :: rest) := by
      rw [digitsVal_cons]
      have : 10 ^ rest.length ≤ digitVal e * 10 ^ rest.length :=
        Nat.le_mul_of_pos_left _ he1
      omega
    have hv0pos : 1 ≤ digitsVal (e :: rest) := by
      have : 1 ≤ 10 ^ rest.length := Nat.one_le_pow _ _ (by omega)
      omega
    have hsplit : digitsVal (e :: (rest ++ [c])) =
        digitsVal (e :: rest) * 10 + digitVal c := by
      rw [show e :: (rest ++ [c]) = (e :: rest) ++ [c] by simp]
      rw [digitsVal_append]
      rw [show digitsVal [c] = digitVal c by rw [digitsVal_cons]; simp [digitsVal]]
      simp
    have hclt := digitVal_lt_ten c hc
    rw [hsplit]
    unfold natToDigits
    rw [dif_neg (by omega)]
    rw [show (digitsVal (e :: rest) * 10 + digitVal c) / 10 = digitsVal (e :: rest) by
      omega]
    rw [show (digitsVal (e :: rest) * 10 + digitVal c) % 10 = digitVal c by omega]
    rw [ihr hd']
    rw [digitChar_digitVal c hc]
    simp

/-- The leading zero run of a string is literally a run of zero digits. -/
theorem takeWhile_isZero_replicate (ds : Str) :
    ds.takeWhile isZero = List.replicate (ds.takeWhile isZero).length '0' := by
  apply List.eq_replicate_of_mem
  intro c hc
  have := List.mem_takeWhile_imp hc
  unfold isZero at this
  simpa using this

/-- Every string decomposes as its leading zero run followed by its
zero-stripped remainder. -/
theorem zeros_append_dropWhile (ds : Str) :
    List.replicate (ds.takeWhile isZero).length '0' ++ ds.dropWhile isZero = ds := by
  rw [← takeWhile_isZero_replicate]
  exact List.takeWhile_append_dropWhile isZero ds

/-- Stripping leading zeros preserves the numeric value. -/
theorem digitsVal_dropWhile_isZero (ds : Str) :
    digitsVal (ds.dropWhile isZero) = digitsVal ds := by
  conv_rhs => rw [← zeros_append_dropWhile ds]
  rw [digitsVal_append, digitsVal_replicate_zeros]
  simp

/-- The head of the zero-stripped remainder is not a zero digit. -/
theorem head_dropWhile_not_isZero (ds : Str) :
    ∀ e rest, ds.dropWhile isZero = e :: rest → e ≠ '0' := by
  induction ds with
  | nil => intro e rest h; simp [List.dropWhile] at h
  | cons c cs ih =>
    intro e rest h
    rw [List.dropWhile_cons] at h
    split at h
    · exact ih e rest h
    · next hz =>
      obtain ⟨rfl, -⟩ := List.cons.inj h
      intro he
      rw [he] at hz
      simp [isZero] at hz

/-- Membership in the zero-stripped remainder implies membership in the
original string. -/
theorem mem_dropWhile_isZero (ds : Str) (c : Char) (h : c ∈ ds.dropWhile isZero) :
    c ∈ ds := by
  rw [← zeros_append_dropWhile ds]
  exact List.mem_append_right _ h

/-- The canonical-form lemma: rendering the value of an all-digit string
yields that string with its leading zeros removed, or the single digit "0"
when nothing remains. -/
theorem natToDigits_digitsVal (ds : Str) (h : ds.all isDigitChar = true) :
    natToDigits (digitsVal ds) =
      if ds.dropWhile isZero = [] then ['0'] else ds.dropWhile isZero := by
  rw [← digitsVal_dropWhile_isZero]
  split
  · next hnil =>
    rw [hnil]
    show natToDigits 0 = ['0']
    unfold natToDigits
    rw [dif_pos (by omega)]
    decide
  · next hnn =>
    obtain ⟨e, rest, hcons⟩ := List.exists_cons_of_ne_nil hnn
    rw [hcons]
    apply natToDigits_of_digits
    · rw [← hcons]
      rw [List.all_eq_true] at h ⊢
      intro c hc
      exact h c (mem_dropWhile_isZero ds c hc)
    · exact head_dropWhile_not_isZero ds e rest hcons

/-- Left-padding the zero-stripped remainder back to the original length
restores the original string. -/
theorem leftPadZeros_dropWhile (ds : Str) :
    leftPadZeros ds.length (ds.dropWhile isZero) = ds := by
  unfold leftPadZeros
  have hlen : (ds.takeWhile isZero).length + (ds.dropWhile isZero).length = ds.length := by
    conv_rhs => rw [← List.takeWhile_append_dropWhile (p := isZero) (l := ds)]
    rw [List.length_append]
  rw [show ds.length - (ds.dropWhile isZero).length = (ds.takeWhile isZero).length by omega]
  exact zeros_append_dropWhile ds

/-- Left-padding back to a prescribed width restores a string of exactly
that width. -/
theorem leftPadZeros_dropWhile_of_length (l : Str) (d : Nat) (h : l.length = d) :
    leftPadZeros d (l.dropWhile isZero) = l := by
  subst h
  exact leftPadZeros_dropWhile l

/-- Trailing zero digits do not affect right-trimming. -/
theorem trimRightZeros_append_zeros (f : Str) (m : Nat) :
    trimRightZeros (f ++ List.replicate m '0') = trimRightZeros f := by
  unfold trimRightZeros
  rw [List.reverse_append, List.reverse_replicate]
  congr 1
  induction m with
  | zero => simp
  | succ m ih =>
    rw [List.replicate_succ, List.cons_append]
    rw [List.dropWhile_cons_of_pos (by simp [isZero])]
    exact ih

/-- Right-trimming erases the string exactly when it is all zero
digits. -/
theorem trimRightZeros_eq_nil_iff (f : Str) :
    trimRightZeros f = [] ↔ ∀ c ∈ f, c = '0' := by
  unfold trimRightZeros
  rw [List.reverse_eq_nil_iff, List.dropWhile_eq_nil_iff]
  constructor
  · intro h c hc
    have := h c (List.mem_reverse.mpr hc)
    unfold isZero at this
    simpa using this
  · intro h c hc
    have := h c (List.mem_reverse.mp hc)
    simp [isZero, this]

/-- dropWhile is the identity when the head fails the predicate (and in
particular when nothing satisfies it). -/
theorem dropWhile_all_neg (p : Char → Bool) (l : Str) (h : ∀ c ∈ l, p c = false) :
    l.dropWhile p = l := by
  cases l with
  | nil => rfl
  | cons c cs =>
    apply List.dropWhile_cons_of_neg
    simp [h c (by simp)]

/-- Trimming is the identity on strings without whitespace. -/
theorem trimSpace_eq_self (x : Str) (h : ∀ c ∈ x, isSpaceChar c = false) :
    trimSpace x = x := by
  unfold trimSpace
  rw [dropWhile_all_neg isSpaceChar x h]
  rw [dropWhile_all_neg isSpaceChar x.reverse (fun c hc => h c (List.mem_reverse.mp hc))]
  exact List.reverse_reverse x

/-- Digits and the dot are not whitespace. -/
theorem digit_or_dot_not_space (c : Char) (h : isDigitChar c = true ∨ c = '.') :
    isSpaceChar c = false := by
  have hn : 46 ≤ c.toNat ∧ c.toNat ≤ 57 := by
    rcases h with h | h
    · unfold isDigitChar at h
      simp at h
      omega
    · rw [h]
      refine ⟨by decide, by decide⟩
  unfold isSpaceChar
  simp only [Bool.or_eq_false_iff]
  refine ⟨⟨⟨⟨⟨?_, ?_⟩, ?_⟩, ?_⟩, ?_⟩, ?_⟩ <;> simp <;> intro he <;> rw [he] at hn <;>
    revert hn <;> decide

/-- When no dot is found the whole input is the integer part. -/
theorem splitDotFirst_none (x : Str) (h : (splitDotFirst x).2 = none) :
    (splitDotFirst x).1 = x := by
  induction x with
  | nil => rfl
  | cons c cs ih =>
    unfold splitDotFirst at h ⊢
    split at h
    · simp at h
    · next hc =>
      dsimp only at h
      rw [if_neg hc]
      dsimp only
      rw [ih h]

/-- When a dot is found the input splits around its first occurrence. -/
theorem splitDotFirst_some (x : Str) :
    ∀ f, (splitDotFirst x).2 = some f → x = (splitDotFirst x).1 ++ '.' :: f := by
  induction x with
  | nil => intro f h; simp [splitDotFirst] at h
  | cons c cs ih =>
    intro f h
    unfold splitDotFirst at h ⊢
    split at h
    · next hc =>
      simp only [Option.some.injEq] at h
      rw [hc, ← h]
      rfl
    · next hc =>
      dsimp only at h
      rw [if_neg hc]
      dsimp only
      rw [List.cons_append]
      rw [← ih f h]

/-- The part before the first dot contains no dot. -/
theorem splitDotFirst_no_dot (x : Str) : '.' ∉ (splitDotFirst x).1 := by
  induction x with
  | nil => simp [splitDotFirst]
  | cons c cs ih =>
    unfold splitDotFirst
    split
    · simp
    · next hc =>
      dsimp only
      intro hmem
      rcases List.mem_cons.mp hmem with h | h
      · exact hc h.symm
      · exact ih h

/-- Defaulting an empty integer part to "0" does not change its canonical
zero-stripped form. -/
theorem whole_default_canonical (w : Str) :
    (if (if w = [] then ['0'] else w).dropWhile isZero = [] then ['0']
     else (if w = [] then ['0'] else w).dropWhile isZero) =
    (if w.dropWhile isZero = [] then ['0'] else w.dropWhile isZero) := by
  by_cases hw0 : w = []
  · subst hw0
    decide
  · rw [if_neg hw0]

/-! ## Theorems for C3 -/

/-- C3: for every non-negative decimal string x (digits with at most one
decimal point) having at most d fractional digits, humanToAtomic succeeds
and atomicToHuman maps its result back to the canonical form of x: leading
zeros of the integer part removed, trailing zeros of the fractional part
removed, and the decimal point dropped when the fractional part becomes
empty. -/
theorem c3_amount_roundtrip (x : Str) (d : Nat) (hwf : decimalWF x)
    (hfl : ((splitDotFirst x).2.getD []).length ≤ d) :
    ∃ a, humanToAtomic x d = Except.ok a ∧ atomicToHuman a d = canonicalize x := by
  obtain ⟨hne, hchars, hdots⟩ := hwf
  have htrim : trimSpace x = x :=
    trimSpace_eq_self x (fun c hc => digit_or_dot_not_space c (hchars c hc))
  rcases hsd : splitDotFirst x with ⟨w, fo⟩
  rw [hsd] at hfl
  dsimp only at hfl
  have hwnodot : '.' ∉ w := by
    have h := splitDotFirst_no_dot x
    rw [hsd] at h
    exact h
  have hwdig : ∀ c ∈ w, isDigitChar c = true := by
    intro c hc
    have hcx : c ∈ x := by
      cases fo with
      | none =>
        have hn := splitDotFirst_none x (by rw [hsd])
        rw [hsd] at hn
        dsimp only at hn
        rw [← hn]
        exact hc
      | some f0 =>
        have hs := splitDotFirst_some x f0 (by rw [hsd])
        rw [hsd] at hs
        dsimp only at hs
        rw [hs]
        exact List.mem_append_left _ hc
    rcases hchars c hcx with h | h
    · exact h
    · exact absurd (h ▸ hc) hwnodot
  have hfdig : ∀ c ∈ fo.getD [], isDigitChar c = true := by
    cases fo with
    | none => intro c hc; simp at hc
    | some f0 =>
      intro c hc
      simp only [Option.getD_some] at hc
      have hs := splitDotFirst_some x f0 (by rw [hsd])
      rw [hsd] at hs
      dsimp only at hs
      have hcx : c ∈ x := by
        rw [hs]
        exact List.mem_append_right _ (List.mem_cons_of_mem _ hc)
      rcases hchars c hcx with h | h
      · exact h
      · exfalso
        have hcnt : x.count '.' = w.count '.' + ('.' :: f0).count '.' := by
          rw [hs, List.count_append]
        have hw0 : w.count '.' = 0 := List.count_eq_zero.mpr hwnodot
        have hcc : ('.' :: f0).count '.' = f0.count '.' + 1 := List.count_cons_self _ _
        have hf1 : 0 < f0.count '.' := by
          rw [List.count_pos_iff]
          exact h ▸ hc
        omega
  have hnotlt : ¬ (d < (fo.getD []).length) := by omega
  have hw'dig : (if w = [] then ['0'] else w).all isDigitChar = true := by
    by_cases hw0 : w = []
    · rw [if_pos hw0]; decide
    · rw [if_neg hw0]
      rw [List.all_eq_true]
      intro c hc
      simp [hwdig c hc]
  have hw'ne : (if w = [] then ['0'] else w) ≠ [] := by
    by_cases hw0 : w = [] <;> simp [hw0]
  have hfpaddig :
      (fo.getD [] ++ List.replicate (d - (fo.getD []).length) '0').all isDigitChar = true := by
    rw [List.all_append]
    simp only [Bool.and_eq_true]
    constructor
    · rw [List.all_eq_true]
      intro c hc
      simp [hfdig c hc]
    · rw [List.all_eq_true]
      intro c hc
      rw [List.eq_of_mem_replicate hc]
      decide
  have hfpadlen :
      (fo.getD [] ++ List.replicate (d - (fo.getD []).length) '0').length = d := by
    rw [List.length_append, List.length_replicate]
    omega
  have hparse : parseDigits
      ((if w = [] then ['0'] else w) ++
        (fo.getD [] ++ List.replicate (d - (fo.getD []).length) '0')) =
      some (digitsVal ((if w = [] then ['0'] else w) ++
        (fo.getD [] ++ List.replicate (d - (fo.getD []).length) '0'))) := by
    unfold parseDigits
    rw [if_pos]
    constructor
    · intro hnil
      exact hw'ne (List.append_eq_nil.mp hnil).1
    · rw [List.all_append]
      simp only [Bool.and_eq_true]
      exact ⟨hw'dig, hfpaddig⟩
  have hn : digitsVal ((if w = [] then ['0'] else w) ++
      (fo.getD [] ++ List.replicate (d - (fo.getD []).length) '0')) =
      digitsVal (if w = [] then ['0'] else w) * 10 ^ d +
        digitsVal (fo.getD [] ++ List.replicate (d - (fo.getD []).length) '0') := by
    rw [digitsVal_append, hfpadlen]
  have hFlt : digitsVal (fo.getD [] ++ List.replicate (d - (fo.getD []).length) '0') <
      10 ^ d := by
    have h := digitsVal_lt _ hfpaddig
    rwa [hfpadlen] at h
  refine ⟨natToDigits (digitsVal ((if w = [] then ['0'] else w) ++
    (fo.getD [] ++ List.replicate (d - (fo.getD []).length) '0'))), ?_, ?_⟩
  · unfold humanToAtomic
    rw [htrim, if_neg hne, hsd]
    dsimp only
    rw [if_neg hnotlt, hparse]
  · unfold atomicToHuman
    rw [parseDigits_natToDigits]
    unfold canonicalize
    rw [hsd]
    dsimp only
    by_cases hd0 : d = 0
    · subst hd0
      have hf0 : fo.getD [] = [] := List.eq_nil_of_length_eq_zero (by omega)
      rw [if_pos rfl]
      rw [hf0]
      simp only [List.nil_append, List.length_nil, List.append_nil, Nat.zero_sub,
        List.replicate_zero]
      rw [natToDigits_digitsVal _ hw'dig]
      rw [whole_default_canonical]
      rw [if_pos (show trimRightZeros ([] : Str) = [] from rfl)]
    · rw [if_neg hd0]
      by_cases hF0 :
          digitsVal (fo.getD [] ++ List.replicate (d - (fo.getD []).length) '0') = 0
      · have hmod : digitsVal ((if w = [] then ['0'] else w) ++
            (fo.getD [] ++ List.replicate (d - (fo.getD []).length) '0')) % 10 ^ d = 0 := by
          rw [hn, hF0, Nat.add_zero]
          exact Nat.mul_mod_left _ _
        rw [if_pos hmod]
        have hdiv : digitsVal ((if w = [] then ['0'] else w) ++
            (fo.getD [] ++ List.replicate (d - (fo.getD []).length) '0')) / 10 ^ d =
            digitsVal (if w = [] then ['0'] else w) := by
          rw [hn, hF0, Nat.add_zero]
          exact Nat.mul_div_cancel _ (pow_pos (by omega) d)
        rw [hdiv]
        rw [natToDigits_digitsVal _ hw'dig]
        have hfz : ∀ c ∈ fo.getD [], c = '0' := by
          intro c hc
          exact (digitsVal_eq_zero_iff _ hfpaddig).mp hF0 c (List.mem_append_left _ hc)
        rw [if_pos ((trimRightZeros_eq_nil_iff (fo.getD [])).mpr hfz)]
        exact whole_default_canonical w
      · have hmod : digitsVal ((if w = [] then ['0'] else w) ++
            (fo.getD [] ++ List.replicate (d - (fo.getD []).length) '0')) % 10 ^ d =
            digitsVal (fo.getD [] ++ List.replicate (d - (fo.getD []).length) '0') := by
          rw [hn, Nat.mul_comm, Nat.mul_add_mod]
          exact Nat.mod_eq_of_lt hFlt
        have hdiv : digitsVal ((if w = [] then ['0'] else w) ++
            (fo.getD [] ++ List.replicate (d - (fo.getD []).length) '0')) / 10 ^ d =
            digitsVal (if w = [] then ['0'] else w) := by
          rw [hn, Nat.mul_comm, Nat.mul_add_div (pow_pos (by omega) d),
            Nat.div_eq_of_lt hFlt, Nat.add_zero]
        rw [if_neg (by rw [hmod]; exact hF0)]
        rw [hdiv, hmod]
        rw [natToDigits_digitsVal _ hfpaddig]
        have hdropne :
            (fo.getD [] ++ List.replicate (d - (fo.getD []).length) '0').dropWhile
              isZero ≠ [] := by
          intro hnil
          apply hF0
          apply (digitsVal_eq_zero_iff _ hfpaddig).mpr
          intro c hc
          have hz := List.dropWhile_eq_nil_iff.mp hnil c hc
          unfold isZero at hz
          simpa using hz
        rw [if_neg hdropne]
        rw [natToDigits_digitsVal _ hw'dig]
        rw [leftPadZeros_dropWhile_of_length _ d hfpadlen, trimRightZeros_append_zeros]
        have hftrim : trimRightZeros (fo.getD []) ≠ [] := by
          intro hnil
          apply hF0
          apply (digitsVal_eq_zero_iff _ hfpaddig).mpr
          intro c hc
          rcases List.mem_append.mp hc with h | h
          · exact (trimRightZeros_eq_nil_iff (fo.getD [])).mp hnil c h
          · exact List.eq_of_mem_replicate h
        rw [if_neg hftrim]
        rw [whole_default_canonical]

/-- C3 witness: "00.50" with three decimals converts to atomic units and
back to its canonical form "0.5". -/
theorem c3_amount_roundtrip_witness :
    ∃ a, humanToAtomic ("00.50".data) 3 = Except.ok a ∧
      atomicToHuman a 3 = canonicalize ("00.50".data) :=
  c3_amount_roundtrip ("00.50".data) 3 (by decide) (by decide)

/-! ## Base64 (URL-safe, unpadded), as base64.RawURLEncoding uses it -/

/-- URL-safe base64 alphabet character of a six-bit value: A–Z, a–z, 0–9,
then '-' and '_'. -/
def b64Char (n : Nat) : Char :=
  if n < 26 then Char.ofNat (65 + n)
  else if n < 52 then Char.ofNat (97 + (n - 26))
  else if n < 62 then Char.ofNat (48 + (n - 52))
  else if n = 62 then '-' else '_'

/-- Inverse alphabet lookup; `none` on a character outside the URL-safe
alphabet (such as the padding character, which RawURLEncoding rejects). -/
def b64Val (c : Char) : Option (Fin 64) :=
  if h : 65 ≤ c.toNat ∧ c.toNat ≤ 90 then some ⟨c.toNat - 65, by omega⟩
  else if h : 97 ≤ c.toNat ∧ c.toNat ≤ 122 then some ⟨26 + (c.toNat - 97), by omega⟩
  else if h : 48 ≤ c.toNat ∧ c.toNat ≤ 57 then some ⟨52 + (c.toNat - 48), by omega⟩
  else if c = '-' then some ⟨62, by omega⟩
  else if c = '_' then some ⟨63, by omega⟩
  else none

/-- Model of `base64.RawURLEncoding.EncodeToString`: each group of three
bytes maps to four alphabet characters; a trailing group of one or two
bytes maps to two or three characters; no padding is emitted. -/
def b64Encode : List Byte → Str
  | [] => []
  | [a] => [b64Char (a.val / 4), b64Char (a.val % 4 * 16)]
  | [a, b] =>
    [b64Char (a.val / 4), b64Char (a.val % 4 * 16 + b.val / 16), b64Char (b.val % 16 * 4)]
  | a :: b :: c :: rest =>
    b64Char (a.val / 4) :: b64Char (a.val % 4 * 16 + b.val / 16) ::
      b64Char (b.val % 16 * 4 + c.val / 64) :: b64Char (c.val % 64) :: b64Encode rest

/-- Model of `base64.RawURLEncoding.DecodeString`: groups of four
characters yield three bytes, a trailing group of two or three characters
yields one or two bytes, a trailing single character or any character
outside the alphabet is an error.  Like Go's non-strict decoder, unused
trailing bits are ignored rather than checked. -/
def b64Decode : Str → Option (List Byte)
  | [] => some []
  | [_] => none
  | [c1, c2] =>
    match b64Val c1, b64Val c2 with
    | some v1, some v2 =>
      some [⟨v1.val * 4 + v2.val / 16, by have := v1.isLt; have := v2.isLt; omega⟩]
    | _, _ => none
  | [c1, c2, c3] =>
    match b64Val c1, b64Val c2, b64Val c3 with
    | some v1, some v2, some v3 =>
      some [⟨v1.val * 4 + v2.val / 16, by have := v1.isLt; have := v2.isLt; omega⟩,
        ⟨v2.val % 16 * 16 + v3.val / 4, by have := v2.isLt; have := v3.isLt; omega⟩]
    | _, _, _ => none
  | c1 :: c2 :: c3 :: c4 :: rest =>
    match b64Val c1, b64Val c2, b64Val c3, b64Val c4, b64Decode rest with
    | some v1, some v2, some v3, some v4, some tail =>
      some (⟨v1.val * 4 + v2.val / 16, by have := v1.isLt; have := v2.isLt; omega⟩ ::
        ⟨v2.val % 16 * 16 + v3.val / 4, by have := v2.isLt; have := v3.isLt; omega⟩ ::
        ⟨v3.val % 4 * 64 + v4.val, by have := v3.isLt; have := v4.isLt; omega⟩ :: tail)
    | _, _, _, _, _ => none

/-- The alphabet lookup inverts the alphabet rendering. -/
theorem b64Val_b64Char : ∀ v : Fin 64, b64Val (b64Char v.val) = some v := by decide

/-- Nat-level form of the alphabet round trip. -/
theorem b64Val_b64Char_nat (n : Nat) (h : n < 64) : b64Val (b64Char n) = some ⟨n, h⟩ :=
  b64Val_b64Char ⟨n, h⟩

/-- Decoding inverts encoding for every byte string. -/
theorem b64_roundtrip : ∀ (bs : List Byte), b64Decode (b64Encode bs) = some bs
  | [] => rfl
  | [a] => by
    have ha := a.isLt
    show b64Decode [b64Char (a.val / 4), b64Char (a.val % 4 * 16)] = some [a]
    unfold b64Decode
    rw [b64Val_b64Char_nat (a.val / 4) (by omega),
      b64Val_b64Char_nat (a.val % 4 * 16) (by omega)]
    dsimp only
    simp only [Option.some.injEq, List.cons.injEq, and_true]
    apply Fin.ext
    show a.val / 4 * 4 + a.val % 4 * 16 / 16 = a.val
    omega
  | [a, b] => by
    have ha := a.isLt
    have hb := b.isLt
    show b64Decode [b64Char (a.val / 4), b64Char (a.val % 4 * 16 + b.val / 16),
      b64Char (b.val % 16 * 4)] = some [a, b]
    unfold b64Decode
    rw [b64Val_b64Char_nat (a.val / 4) (by omega),
      b64Val_b64Char_nat (a.val % 4 * 16 + b.val / 16) (by omega),
      b64Val_b64Char_nat (b.val % 16 * 4) (by omega)]
    dsimp only
    simp only [Option.some.injEq, List.cons.injEq, and_true]
    constructor
    · apply Fin.ext
      show a.val / 4 * 4 + (a.val % 4 * 16 + b.val / 16) / 16 = a.val
      omega
    · apply Fin.ext
      show (a.val % 4 * 16 + b.val / 16) % 16 * 16 + b.val % 16 * 4 / 4 = b.val
      omega
  | a :: b :: c :: rest => by
    have ha := a.isLt
    have hb := b.isLt
    have hc := c.isLt
    have ih := b64_roundtrip rest
    show b64Decode (b64Char (a.val / 4) :: b64Char (a.val % 4 * 16 + b.val / 16) ::
      b64Char (b.val % 16 * 4 + c.val / 64) :: b64Char (c.val % 64) :: b64Encode rest) =
      some (a :: b :: c :: rest)
    unfold b64Decode
    rw [b64Val_b64Char_nat (a.val / 4) (by omega),
      b64Val_b64Char_nat (a.val % 4 * 16 + b.val / 16) (by omega),
      b64Val_b64Char_nat (b.val % 16 * 4 + c.val / 64) (by omega),
      b64Val_b64Char_nat (c.val % 64) (by omega), ih]
    dsimp only
    simp only [Option.some.injEq, List.cons.injEq, and_true]
    refine ⟨?_, ?_, ?_⟩
    · apply Fin.ext
      show a.val / 4 * 4 + (a.val % 4 * 16 + b.val / 16) / 16 = a.val
      omega
    · apply Fin.ext
      show (a.val % 4 * 16 + b.val / 16) % 16 * 16 + (b.val % 16 * 4 + c.val / 64) / 4 = b.val
      omega
    · apply Fin.ext
      show (b.val % 16 * 4 + c.val / 64) % 4 * 64 + c.val % 64 = c.val
      omega

/-! ## UTF-8, the byte form in which Go strings carry character data -/

/-- Characters are scalar values: below the surrogate range, or above it
and within the Unicode code space. -/
theorem char_valid_range (c : Char) :
    c.toNat < 55296 ∨ (57343 < c.toNat ∧ c.toNat < 1114112) := by
  rcases c.valid with h | ⟨h1, h2⟩
  · left; exact h
  · right; exact ⟨h1, h2⟩

/-- Building a character from any valid code point reads back the code
point. -/
theorem charToNat_ofNat_valid (n : Nat) (h : n.isValidChar) : (Char.ofNat n).toNat = n := by
  unfold Char.ofNat
  rw [dif_pos h]
  simp [Char.toNat, Char.ofNatAux, UInt32.toNat, BitVec.toNat_ofNatLt]

/-- Rebuilding a character from its code point is the identity. -/
theorem charOfNat_toNat (c : Char) : Char.ofNat c.toNat = c := by
  apply char_eq_of_toNat
  apply charToNat_ofNat_valid
  rcases char_valid_range c with h | h
  · exact Or.inl h
  · exact Or.inr h

/-- UTF-8 bytes of one character, as Go strings store them. -/
def utf8EncodeChar (c : Char) : List Byte :=
  if _h : c.toNat < 128 then [⟨c.toNat, by omega⟩]
  else if _h2 : c.toNat < 2048 then
    [⟨192 + c.toNat / 64, by omega⟩, ⟨128 + c.toNat % 64, by omega⟩]
  else if _h3 : c.toNat < 65536 then
    [⟨224 + c.toNat / 4096, by omega⟩, ⟨128 + c.toNat / 64 % 64, by omega⟩,
      ⟨128 + c.toNat % 64, by omega⟩]
  else
    [⟨240 + c.toNat / 262144, by have := char_valid_range c; omega⟩,
      ⟨128 + c.toNat / 4096 % 64, by omega⟩, ⟨128 + c.toNat / 64 % 64, by omega⟩,
      ⟨128 + c.toNat % 64, by omega⟩]

/-- UTF-8 encoding of a character string. -/
def utf8Encode : Str → List Byte
  | [] => []
  | c :: rest => utf8EncodeChar c ++ utf8Encode rest

/-- One step of UTF-8 decoding with full validation: continuation ranges,
overlong forms, the surrogate gap and the Unicode maximum are all checked;
any violation is an error.  Returns the decoded character and the
remaining bytes. -/
def utf8DecodeOne (b : Byte) (rest : List Byte) : Option (Char × List Byte) :=
  if b.val < 128 then some (Char.ofNat b.val, rest)
  else if b.val < 194 then none
  else if b.val < 224 then
    match rest with
    | b2 :: rest2 =>
      if 128 ≤ b2.val ∧ b2.val < 192 then
        some (Char.ofNat ((b.val - 192) * 64 + (b2.val - 128)), rest2)
      else none
    | [] => none
  else if b.val < 240 then
    match rest with
    | b2 :: b3 :: rest3 =>
      if (128 ≤ b2.val ∧ b2.val < 192) ∧ (128 ≤ b3.val ∧ b3.val < 192) then
        if 2048 ≤ (b.val - 224) * 4096 + (b2.val - 128) * 64 + (b3.val - 128) ∧
            ((b.val - 224) * 4096 + (b2.val - 128) * 64 + (b3.val - 128) < 55296 ∨
              57343 < (b.val - 224) * 4096 + (b2.val - 128) * 64 + (b3.val - 128)) then
          some (Char.ofNat ((b.val - 224) * 4096 + (b2.val - 128) * 64 + (b3.val - 128)),
            rest3)
        else none
      else none
    | _ => none
  else if b.val < 245 then
    match rest with
    | b2 :: b3 :: b4 :: rest4 =>
      if (128 ≤ b2.val ∧ b2.val < 192) ∧ (128 ≤ b3.val ∧ b3.val < 192) ∧
          (128 ≤ b4.val ∧ b4.val < 192) then
        if 65536 ≤ (b.val - 240) * 262144 + (b2.val - 128) * 4096 +
            (b3.val - 128) * 64 + (b4.val - 128) ∧
            (b.val - 240) * 262144 + (b2.val - 128) * 4096 +
              (b3.val - 128) * 64 + (b4.val - 128) < 1114112 then
          some (Char.ofNat ((b.val - 240) * 262144 + (b2.val - 128) * 4096 +
            (b3.val - 128) * 64 + (b4.val - 128)), rest4)
        else none
      else none
    | _ => none
  else none

/-- One decoding step never grows the remaining byte string. -/
theorem utf8DecodeOne_length (b : Byte) (rest : List Byte) (c : Char) (rest' : List Byte)
    (h : utf8DecodeOne b rest = some (c, rest')) : rest'.length ≤ rest.length := by
  unfold utf8DecodeOne at h
  split at h
  · obtain ⟨-, rfl⟩ := Prod.mk.injEq .. ▸ Option.some.inj h
    exact Nat.le_refl _
  · split at h
    · exact absurd h (by simp)
    · split at h
      · split at h
        · split at h
          · obtain ⟨-, rfl⟩ := Prod.mk.injEq .. ▸ Option.some.inj h
            simp only [List.length_cons]
            omega
          · exact absurd h (by simp)
        · exact absurd h (by simp)
      · split at h
        · split at h
          · split at h
            · split at h
              · obtain ⟨-, rfl⟩ := Prod.mk.injEq .. ▸ Option.some.inj h
                simp only [List.length_cons]
                omega
              · exact absurd h (by simp)
            · exact absurd h (by simp)
          · exact absurd h (by simp)
        · split at h
          · split at h
            · split at h
              · split at h
                · obtain ⟨-, rfl⟩ := Prod.mk.injEq .. ▸ Option.some.inj h
                  simp only [List.length_cons]
                  omega
                · exact absurd h (by simp)
              · exact absurd h (by simp)
            · exact absurd h (by simp)
          · exact absurd h (by simp)

/-- UTF-8 decoding of a whole byte string. -/
def utf8Decode (l : List Byte) : Option Str :=
  match l with
  | [] => some []
  | b :: rest =>
    match hd : utf8DecodeOne b rest with
    | some (c, rest') => (utf8Decode rest').map (fun s => c :: s)
    | none => none
termination_by l.length
decreasing_by
  have := utf8DecodeOne_length b rest c rest' hd
  simp
  omega

/-- One decoding step consumes exactly a character's UTF-8 bytes and
yields that character. -/
theorem utf8DecodeOne_encodeChar (c : Char) (tail : List Byte) :
    ∃ b bs, utf8EncodeChar c = b :: bs ∧ utf8DecodeOne b (bs ++ tail) = some (c, tail) := by
  have hv := char_valid_range c
  unfold utf8EncodeChar
  by_cases h1 : c.toNat < 128
  · rw [dif_pos h1]
    refine ⟨_, _, rfl, ?_⟩
    unfold utf8DecodeOne
    rw [if_pos (by (try dsimp only); omega)]
    simp [charOfNat_toNat]
  · rw [dif_neg h1]
    by_cases h2 : c.toNat < 2048
    · rw [dif_pos h2]
      refine ⟨_, _, rfl, ?_⟩
      unfold utf8DecodeOne
      rw [if_neg (by (try dsimp only); omega), if_neg (by (try dsimp only); omega),
        if_pos (by (try dsimp only); omega)]
      simp only [List.cons_append, List.nil_append]
      rw [if_pos (by (try dsimp only); omega)]
      try dsimp only
      rw [show (192 + c.toNat / 64 - 192) * 64 + (128 + c.toNat % 64 - 128) = c.toNat by
        omega]
      rw [charOfNat_toNat]
    · rw [dif_neg h2]
      by_cases h3 : c.toNat < 65536
      · rw [dif_pos h3]
        refine ⟨_, _, rfl, ?_⟩
        unfold utf8DecodeOne
        rw [if_neg (by (try dsimp only); omega), if_neg (by (try dsimp only); omega),
          if_neg (by (try dsimp only); omega), if_pos (by (try dsimp only); omega)]
        simp only [List.cons_append, List.nil_append]
        rw [if_pos (by (try dsimp only); omega)]
        try dsimp only
        rw [show (224 + c.toNat / 4096 - 224) * 4096 + (128 + c.toNat / 64 % 64 - 128) * 64 +
          (128 + c.toNat % 64 - 128) = c.toNat by omega]
        rw [if_pos (by omega)]
        rw [charOfNat_toNat]
      · rw [dif_neg h3]
        refine ⟨_, _, rfl, ?_⟩
        unfold utf8DecodeOne
        rw [if_neg (by (try dsimp only); omega), if_neg (by (try dsimp only); omega),
          if_neg (by (try dsimp only); omega), if_neg (by (try dsimp only); omega),
          if_pos (by (try dsimp only); omega)]
        simp only [List.cons_append, List.nil_append]
        rw [if_pos (by (try dsimp only); omega)]
        try dsimp only
        rw [show (240 + c.toNat / 262144 - 240) * 262144 + (128 + c.toNat / 4096 % 64 - 128) *
          4096 + (128 + c.toNat / 64 % 64 - 128) * 64 + (128 + c.toNat % 64 - 128) =
          c.toNat by omega]
        rw [if_pos (by omega)]
        rw [charOfNat_toNat]

/-- Decoding a character's UTF-8 bytes in front of any tail yields the
character in front of the decoded tail. -/
theorem utf8Decode_encodeChar (c : Char) (tail : List Byte) :
    utf8Decode (utf8EncodeChar c ++ tail) = (utf8Decode tail).map (fun s => c :: s) := by
  obtain ⟨b, bs, henc, hone⟩ := utf8DecodeOne_encodeChar c tail
  rw [henc, List.cons_append]
  rw [utf8Decode]
  rw [hone]

/-- UTF-8 decoding inverts UTF-8 encoding. -/
theorem utf8_roundtrip (s : Str) : utf8Decode (utf8Encode s) = some s := by
  induction s with
  | nil =>
    show utf8Decode [] = some []
    rw [utf8Decode]
  | cons c cs ih =>
    show utf8Decode (utf8EncodeChar c ++ utf8Encode cs) = _
    rw [utf8Decode_encodeChar, ih]
    rfl

/-! ## JSON strings, as encoding/json emits and parses them -/

/-- Lowercase hexadecimal digit character. -/
def hexDigitChar (n : Nat) : Char :=
  if n < 10 then Char.ofNat (48 + n) else Char.ofNat (87 + n)

/-- Model of encoding/json's HTML-escaping string encoder, per character:
quote and backslash are escaped, newline, carriage return and tab get
their short escapes, other control characters and the HTML-sensitive '<',
'>' and '&' are written as a lowercase \u00xx escape, the line separators
U+2028 and U+2029 as their own \u escapes, and every other character is
written as itself. -/
def jsonEscapeChar (c : Char) : Str :=
  if c = '"' then ['\\', '"']
  else if c = '\\' then ['\\', '\\']
  else if c = '\n' then ['\\', 'n']
  else if c = '\r' then ['\\', 'r']
  else if c = '\t' then ['\\', 't']
  else if c.toNat < 32 ∨ c = '<' ∨ c = '>' ∨ c = '&' then
    ['\\', 'u', '0', '0', hexDigitChar (c.toNat / 16), hexDigitChar (c.toNat % 16)]
  else if c.toNat = 8232 ∨ c.toNat = 8233 then
    ['\\', 'u', '2', '0', '2', hexDigitChar (c.toNat % 16)]
  else [c]

/-- Escaping of a whole string. -/
def jsonEscape : Str → Str
  | [] => []
  | c :: rest => jsonEscapeChar c ++ jsonEscape rest

/-- A quoted JSON string literal. -/
def jsonQuote (s : Str) : Str := '"' :: (jsonEscape s ++ ['"'])

/-- Value of a hexadecimal digit character, either case. -/
def parseHexDigit (c : Char) : Option Nat :=
  if 48 ≤ c.toNat ∧ c.toNat ≤ 57 then some (c.toNat - 48)
  else if 97 ≤ c.toNat ∧ c.toNat ≤ 102 then some (c.toNat - 87)
  else if 65 ≤ c.toNat ∧ c.toNat ≤ 70 then some (c.toNat - 55)
  else none

/-- Decoding of the four-hex-digit \uXXXX escape body: the digits and the
input after them.  Surrogate code points, which the encoder never emits
for the data at hand, are mapped to the replacement character as the
decoder substitutes U+FFFD for unpaired surrogates. -/
def parseUEscape (s : Str) : Option (Char × Str) :=
  match s with
  | h1 :: h2 :: h3 :: h4 :: rest3 =>
    match parseHexDigit h1, parseHexDigit h2, parseHexDigit h3, parseHexDigit h4 with
    | some d1, some d2, some d3, some d4 =>
      if 55296 <= d1 * 4096 + d2 * 256 + d3 * 16 + d4 ∧
          d1 * 4096 + d2 * 256 + d3 * 16 + d4 <= 57343 then
        some (Char.ofNat 65533, rest3)
      else
        some (Char.ofNat (d1 * 4096 + d2 * 256 + d3 * 16 + d4), rest3)
    | _, _, _, _ => none
  | _ => none

/-- Decoding of one escape sequence after the backslash: the recognised
single-character escapes, or a \uXXXX escape. -/
def parseEscape (e : Char) (rest2 : Str) : Option (Char × Str) :=
  if e = '"' then some ('"', rest2)
  else if e = '\\' then some ('\\', rest2)
  else if e = '/' then some ('/', rest2)
  else if e = '\'' then some ('\'', rest2)
  else if e = 'b' then some (Char.ofNat 8, rest2)
  else if e = 'f' then some (Char.ofNat 12, rest2)
  else if e = 'n' then some ('\n', rest2)
  else if e = 'r' then some ('\r', rest2)
  else if e = 't' then some ('\t', rest2)
  else if e = 'u' then parseUEscape rest2
  else none

/-- One step of the JSON string-content scanner, modelling the decoder's
unquoting loop: the closing quote ends the string, a backslash introduces
one of the recognised escapes, a raw control character is an error, and
any other character stands for itself. -/
def parseStringOne (s : Str) : Option (Option Char × Str) :=
  match s with
  | [] => none
  | c :: rest =>
    if c = '"' then some (none, rest)
    else if c = '\\' then
      match rest with
      | [] => none
      | e :: rest2 =>
        match parseEscape e rest2 with
        | some (d, rest3) => some (some d, rest3)
        | none => none
    else if c.toNat < 32 then none
    else some (some c, rest)

/-- The unicode-escape decoder consumes at least the four digits. -/
theorem parseUEscape_length (s : Str) (d : Char) (rest' : Str)
    (h : parseUEscape s = some (d, rest')) : rest'.length + 4 <= s.length := by
  unfold parseUEscape at h
  split at h
  · split at h
    · split at h
      · obtain ⟨-, rfl⟩ := Prod.mk.injEq .. ▸ Option.some.inj h
        simp only [List.length_cons]
        omega
      · obtain ⟨-, rfl⟩ := Prod.mk.injEq .. ▸ Option.some.inj h
        simp only [List.length_cons]
        omega
    · exact Option.noConfusion h
  · exact Option.noConfusion h

/-- The escape decoder never grows the input. -/
theorem parseEscape_length (e : Char) (rest2 : Str) (d : Char) (rest' : Str)
    (h : parseEscape e rest2 = some (d, rest')) : rest'.length <= rest2.length := by
  unfold parseEscape at h
  split at h
  · obtain ⟨-, rfl⟩ := Prod.mk.injEq .. ▸ Option.some.inj h
    exact Nat.le_refl _
  · split at h
    · obtain ⟨-, rfl⟩ := Prod.mk.injEq .. ▸ Option.some.inj h
      exact Nat.le_refl _
    · split at h
      · obtain ⟨-, rfl⟩ := Prod.mk.injEq .. ▸ Option.some.inj h
        exact Nat.le_refl _
      · split at h
        · obtain ⟨-, rfl⟩ := Prod.mk.injEq .. ▸ Option.some.inj h
          exact Nat.le_refl _
        · split at h
          · obtain ⟨-, rfl⟩ := Prod.mk.injEq .. ▸ Option.some.inj h
            exact Nat.le_refl _
          · split at h
            · obtain ⟨-, rfl⟩ := Prod.mk.injEq .. ▸ Option.some.inj h
              exact Nat.le_refl _
            · split at h
              · obtain ⟨-, rfl⟩ := Prod.mk.injEq .. ▸ Option.some.inj h
                exact Nat.le_refl _
              · split at h
                · obtain ⟨-, rfl⟩ := Prod.mk.injEq .. ▸ Option.some.inj h
                  exact Nat.le_refl _
                · split at h
                  · obtain ⟨-, rfl⟩ := Prod.mk.injEq .. ▸ Option.some.inj h
                    exact Nat.le_refl _
                  · split at h
                    · have := parseUEscape_length rest2 d rest' h
                      omega
                    · exact Option.noConfusion h
/-- A successful scanner step strictly consumes input. -/
theorem parseStringOne_length (s : Str) (oc : Option Char) (rest' : Str)
    (h : parseStringOne s = some (oc, rest')) : rest'.length < s.length := by
  unfold parseStringOne at h
  split at h
  · exact Option.noConfusion h
  · split at h
    · obtain ⟨-, rfl⟩ := Prod.mk.injEq .. ▸ Option.some.inj h
      simp only [List.length_cons]
      omega
    · split at h
      · split at h
        · exact Option.noConfusion h
        · split at h
          · next d rest3 heq =>
            obtain ⟨-, rfl⟩ := Prod.mk.injEq .. ▸ Option.some.inj h
            have := parseEscape_length _ _ _ _ heq
            simp only [List.length_cons]
            omega
          · exact Option.noConfusion h
      · split at h
        · exact Option.noConfusion h
        · obtain ⟨-, rfl⟩ := Prod.mk.injEq .. ▸ Option.some.inj h
          simp only [List.length_cons]
          omega

/-- The JSON string-content parser: content up to the closing quote, and
the input after it. -/
def parseStringBody (s : Str) : Option (Str × Str) :=
  match hd : parseStringOne s with
  | none => none
  | some (none, rest) => some ([], rest)
  | some (some c, rest) => (parseStringBody rest).map (fun p => (c :: p.1, p.2))
termination_by s.length
decreasing_by
  exact parseStringOne_length s (some c) rest hd

/-- The hex parse inverts the hex rendering on one digit. -/
theorem parseHexDigit_hexDigitChar : ∀ v : Fin 16, parseHexDigit (hexDigitChar v.val) = some v.val := by
  decide

/-- Nat-level form of the hex digit round trip. -/
theorem parseHexDigit_hexDigitChar_nat (n : Nat) (h : n < 16) :
    parseHexDigit (hexDigitChar n) = some n :=
  parseHexDigit_hexDigitChar ⟨n, h⟩

/-- The unicode-escape decoder inverts the \u00xx rendering of a one-byte
code point. -/
theorem parseUEscape_hex (n : Nat) (hn : n < 256) (tail : Str) :
    parseUEscape ('0' :: '0' :: hexDigitChar (n / 16) :: hexDigitChar (n % 16) :: tail) =
      some (Char.ofNat n, tail) := by
  unfold parseUEscape
  dsimp only
  rw [show parseHexDigit '0' = some 0 from rfl]
  rw [parseHexDigit_hexDigitChar_nat (n / 16) (by omega),
    parseHexDigit_hexDigitChar_nat (n % 16) (by omega)]
  dsimp only
  rw [if_neg (by omega)]
  rw [show (0 : Nat) * 4096 + 0 * 256 + n / 16 * 16 + n % 16 = n by omega]

/-- The unicode-escape decoder inverts the \u202x rendering of the line
separators. -/
theorem parseUEscape_lineSep (n : Nat) (hn : n = 8232 ∨ n = 8233) (tail : Str) :
    parseUEscape ('2' :: '0' :: '2' :: hexDigitChar (n % 16) :: tail) =
      some (Char.ofNat n, tail) := by
  unfold parseUEscape
  dsimp only
  rw [show parseHexDigit '2' = some 2 from rfl, show parseHexDigit '0' = some 0 from rfl]
  rw [parseHexDigit_hexDigitChar_nat (n % 16) (by omega)]
  dsimp only
  rw [if_neg (by omega)]
  rw [show (2 : Nat) * 4096 + 0 * 256 + 2 * 16 + n % 16 = n by omega]

/-- The scanner step inverts the per-character escape in front of any
tail. -/
theorem parseStringOne_escapeChar (c : Char) (tail : Str) :
    parseStringOne (jsonEscapeChar c ++ tail) = some (some c, tail) := by
  unfold jsonEscapeChar
  by_cases h1 : c = '"'
  · subst h1; rw [if_pos rfl]; rfl
  · rw [if_neg h1]
    by_cases h2 : c = '\\'
    · subst h2; rw [if_pos rfl]; rfl
    · rw [if_neg h2]
      by_cases h3 : c = '\n'
      · subst h3; rw [if_pos rfl]; rfl
      · rw [if_neg h3]
        by_cases h4 : c = '\r'
        · subst h4; rw [if_pos rfl]; rfl
        · rw [if_neg h4]
          by_cases h5 : c = '\t'
          · subst h5; rw [if_pos rfl]; rfl
          · rw [if_neg h5]
            by_cases h6 : c.toNat < 32 ∨ c = '<' ∨ c = '>' ∨ c = '&'
            · rw [if_pos h6]
              have hlt : c.toNat < 256 := by
                rcases h6 with h | h | h | h
                · omega
                · rw [h]; decide
                · rw [h]; decide
                · rw [h]; decide
              calc parseStringOne ('\\' :: 'u' :: '0' :: '0' ::
                  hexDigitChar (c.toNat / 16) :: hexDigitChar (c.toNat % 16) :: tail)
                  = (match parseUEscape ('0' :: '0' :: hexDigitChar (c.toNat / 16) ::
                      hexDigitChar (c.toNat % 16) :: tail) with
                     | some (d, r) => some (some d, r)
                     | none => none) := rfl
                _ = some (some (Char.ofNat c.toNat), tail) := by
                    rw [parseUEscape_hex c.toNat hlt tail]
                _ = some (some c, tail) := by rw [charOfNat_toNat]
            · rw [if_neg h6]
              by_cases h7 : c.toNat = 8232 ∨ c.toNat = 8233
              · rw [if_pos h7]
                calc parseStringOne ('\\' :: 'u' :: '2' :: '0' :: '2' ::
                    hexDigitChar (c.toNat % 16) :: tail)
                    = (match parseUEscape ('2' :: '0' :: '2' ::
                        hexDigitChar (c.toNat % 16) :: tail) with
                       | some (d, r) => some (some d, r)
                       | none => none) := rfl
                  _ = some (some (Char.ofNat c.toNat), tail) := by
                      rw [parseUEscape_lineSep c.toNat h7 tail]
                  _ = some (some c, tail) := by rw [charOfNat_toNat]
              · rw [if_neg h7]
                show parseStringOne (c :: tail) = some (some c, tail)
                unfold parseStringOne
                dsimp only
                rw [if_neg h1, if_neg h2, if_neg (by omega)]

/-- The string-content parser inverts the escaper: the escaped content
followed by the closing quote parses back to the content and the input
after the quote. -/
theorem parseStringBody_escape (s : Str) (tail : Str) :
    parseStringBody (jsonEscape s ++ '"' :: tail) = some (s, tail) := by
  induction s with
  | nil =>
    show parseStringBody ('"' :: tail) = some ([], tail)
    rw [parseStringBody]
    rw [show parseStringOne ('"' :: tail) = some (none, tail) from rfl]
  | cons c cs ih =>
    show parseStringBody (jsonEscapeChar c ++ jsonEscape cs ++ '"' :: tail) = _
    rw [List.append_assoc]
    rw [parseStringBody]
    rw [parseStringOne_escapeChar c (jsonEscape cs ++ '"' :: tail)]
    dsimp only
    rw [ih]
    rfl

/-! ## src/crypto.go: the order token codec -/

/-- Embedding of the `OrderData` struct (src/crypto.go): the swap metadata
sealed into the order token.  Field order matches the Go declaration; the
memo field (JSON key "m") carries `omitempty`. -/
structure OrderData where
  depositAddr : Str
  memo : Str
  fromTicker : Str
  fromNet : Str
  toTicker : Str
  toNet : Str
  amountIn : Str
  amountOut : Str
  deadline : Str
  corrID : Str
deriving DecidableEq

/-- The zero value of OrderData, which json.Unmarshal fills in. -/
def emptyOrder : OrderData := ⟨[], [], [], [], [], [], [], [], [], []⟩

/-- The key-value pairs json.Marshal emits for an OrderData, in struct
order, with the memo omitted when empty. -/
def marshalMembers (r : OrderData) : List (Str × Str) :=
  [(['d'], r.depositAddr)] ++
  (if r.memo = [] then [] else [(['m'], r.memo)]) ++
  [(['f'], r.fromTicker), (['f', 'n'], r.fromNet), (['t'], r.toTicker),
   (['t', 'n'], r.toNet), (['a', 'i'], r.amountIn), (['a', 'o'], r.amountOut),
   (['d', 'l'], r.deadline), (['c'], r.corrID)]

/-- Comma-joined rendering of the members as quoted key, colon, quoted
value. -/
def emitMembers : List (Str × Str) → Str
  | [] => []
  | [(k, v)] => jsonQuote k ++ ':' :: jsonQuote v
  | (k, v) :: rest => jsonQuote k ++ ':' :: jsonQuote v ++ ',' :: emitMembers rest

/-- Model of `json.Marshal` on OrderData: the compact brace-delimited
object document. -/
def jsonMarshalOrder (r : OrderData) : Str :=
  Char.ofNat 123 :: emitMembers (marshalMembers r) ++ [Char.ofNat 125]

/-- The field assignment json.Unmarshal performs for one member: known
abbreviated keys set their field, unknown keys are ignored. -/
def setField (r : OrderData) (k v : Str) : OrderData :=
  if k = ['d'] then { r with depositAddr := v }
  else if k = ['m'] then { r with memo := v }
  else if k = ['f'] then { r with fromTicker := v }
  else if k = ['f', 'n'] then { r with fromNet := v }
  else if k = ['t'] then { r with toTicker := v }
  else if k = ['t', 'n'] then { r with toNet := v }
  else if k = ['a', 'i'] then { r with amountIn := v }
  else if k = ['a', 'o'] then { r with amountOut := v }
  else if k = ['d', 'l'] then { r with deadline := v }
  else if k = ['c'] then { r with corrID := v }
  else r

/-- The member loop of json.Unmarshal on a compact string-valued object:
a quoted key, a colon, a quoted value, then a comma (continue) or the
closing brace (stop).  Fueled by the input length; every member consumes
at least one character. -/
def parseMembers : Nat → Str → OrderData → Option (OrderData × Str)
  | 0, _, _ => none
  | fuel + 1, s, acc =>
    match s with
    | [] => none
    | c :: s1 =>
      if c = '"' then
        match parseStringBody s1 with
        | some (k, s2) =>
          match s2 with
          | c2 :: c3 :: s3 =>
            if c2 = ':' ∧ c3 = '"' then
              match parseStringBody s3 with
              | some (v, s4) =>
                match s4 with
                | c4 :: s5 =>
                  if c4 = ',' then parseMembers fuel s5 (setField acc k v)
                  else if c4 = Char.ofNat 125 then some (setField acc k v, s5)
                  else none
                | [] => none
              | none => none
            else none
          | _ => none
        | none => none
      else none

/-- Model of `json.Unmarshal` into OrderData, restricted to the compact
string-valued object documents json.Marshal produces: a leading brace,
members with unknown keys ignored and later duplicates winning, a closing
brace, and no trailing data. -/
def jsonUnmarshalOrder (s : Str) : Option OrderData :=
  match s with
  | [] => none
  | c :: rest =>
    if c = Char.ofNat 123 then
      match rest with
      | [] => none
      | c2 :: rest2 =>
        if c2 = Char.ofNat 125 then (if rest2 = [] then some emptyOrder else none)
        else
          match parseMembers rest.length rest emptyOrder with
          | some (r, []) => some r
          | _ => none
    else none

/-! ## The JSON object round trip -/

/-- A rendered member list parses back to the fold of its assignments. -/
theorem parseMembers_emit : ∀ (ms : List (Str × Str)) (fuel : Nat) (acc : OrderData),
    ms ≠ [] → ms.length ≤ fuel →
    parseMembers fuel (emitMembers ms ++ [Char.ofNat 125]) acc =
      some (ms.foldl (fun a p => setField a p.1 p.2) acc, []) := by
  intro ms
  induction ms with
  | nil => intro fuel acc hne _; exact absurd rfl hne
  | cons m ms' ih =>
    intro fuel acc _ hlen
    obtain ⟨k, v⟩ := m
    match fuel, hlen with
    | fuel + 1, hlen2 =>
      cases ms' with
      | nil =>
        show parseMembers (fuel + 1)
          ((jsonQuote k ++ ':' :: jsonQuote v) ++ [Char.ofNat 125]) acc = _
        unfold jsonQuote
        simp only [List.cons_append, List.append_assoc, List.nil_append]
        unfold parseMembers
        dsimp only
        rw [if_pos rfl]
        rw [parseStringBody_escape k]
        dsimp only
        rw [if_pos ⟨rfl, rfl⟩]
        rw [parseStringBody_escape v]
        dsimp only
        rw [if_neg (by decide), if_pos rfl]
        rfl
      | cons m2 ms'' =>
        show parseMembers (fuel + 1)
          ((jsonQuote k ++ ':' :: jsonQuote v ++ ',' :: emitMembers (m2 :: ms'')) ++
            [Char.ofNat 125]) acc = _
        unfold jsonQuote
        simp only [List.cons_append, List.append_assoc, List.nil_append]
        unfold parseMembers
        dsimp only
        rw [if_pos rfl]
        rw [parseStringBody_escape k]
        dsimp only
        rw [if_pos ⟨rfl, rfl⟩]
        rw [parseStringBody_escape v]
        dsimp only
        rw [if_pos rfl]
        rw [ih fuel (setField acc k v) (by simp) (by
          simp only [List.length_cons] at hlen2 ⊢
          omega)]
        rfl

/-- The rendered member list is never shorter than the member count. -/
theorem emitMembers_length : ∀ ms : List (Str × Str), ms.length ≤ (emitMembers ms).length := by
  intro ms
  induction ms with
  | nil => simp [emitMembers]
  | cons m ms' ih =>
    obtain ⟨k, v⟩ := m
    cases ms' with
    | nil => simp [emitMembers, jsonQuote]
    | cons m2 ms'' =>
      show (m2 :: ms'').length + 1 ≤ (jsonQuote k ++ ':' :: jsonQuote v ++ ',' ::
        emitMembers (m2 :: ms'')).length
      simp only [List.length_append, List.length_cons, jsonQuote] at ih ⊢
      omega

/-- The rendered member list of an order always starts with a quote. -/
theorem emitMembers_marshal_head (r : OrderData) :
    ∃ t, emitMembers (marshalMembers r) = '"' :: t := by
  unfold marshalMembers
  by_cases hm : r.memo = [] <;>
    simp only [hm, if_pos, if_neg, List.cons_append, List.nil_append] <;>
    exact ⟨_, rfl⟩

/-- Folding the emitted assignments over the zero value rebuilds the
record. -/
theorem applyMembers_marshal (r : OrderData) :
    (marshalMembers r).foldl (fun a p => setField a p.1 p.2) emptyOrder = r := by
  obtain ⟨a, m, f, fn, t, tn, ai, ao, dl, c⟩ := r
  unfold marshalMembers
  by_cases hm : m = []
  · subst hm
    rw [if_pos rfl]
    rfl
  · rw [if_neg hm]
    rfl

/-- Unmarshal inverts marshal on every order record. -/
theorem jsonUnmarshal_marshal (r : OrderData) :
    jsonUnmarshalOrder (jsonMarshalOrder r) = some r := by
  obtain ⟨t, ht⟩ := emitMembers_marshal_head r
  have hne : marshalMembers r ≠ [] := by
    unfold marshalMembers
    by_cases hm : r.memo = [] <;> simp [hm]
  have hlen : (marshalMembers r).length ≤ (emitMembers (marshalMembers r) ++
      [Char.ofNat 125]).length := by
    have := emitMembers_length (marshalMembers r)
    simp only [List.length_append, List.length_cons, List.length_nil]
    omega
  unfold jsonMarshalOrder
  rw [ht, List.cons_append]
  simp only [jsonUnmarshalOrder, if_true]
  show (match parseMembers ('"' :: t ++ [Char.ofNat 125]).length
      ('"' :: t ++ [Char.ofNat 125]) emptyOrder with
    | some (r, []) => some r
    | _ => none) = some r
  rw [← ht]
  rw [parseMembers_emit (marshalMembers r) _ emptyOrder hne hlen]
  rw [applyMembers_marshal]

/-- Abstract model of the AEAD used by the codec (AES-256-GCM under the
fixed 32-byte process key, via cipher.NewGCM): sealing appends a 16-byte
authenticator after the ciphertext, which is as long as the plaintext, and
opening inverts sealing under the same nonce.  These are exactly the
properties of Seal and Open the source relies on. -/
structure AEAD where
  sealB : List Byte → List Byte → List Byte
  openB : List Byte → List Byte → Option (List Byte)
  sealB_length : ∀ iv pt, (sealB iv pt).length = pt.length + 16
  open_sealB : ∀ iv pt, openB iv (sealB iv pt) = some pt

/-- Embedding of `encryptOrderData` (src/crypto.go): marshal the order,
seal it under a fresh 12-byte IV, pack IV followed by the sealed bytes,
and render in URL-safe unpadded base64.  The random IV is an explicit
input. -/
def encryptOrderData (A : AEAD) (iv : List Byte) (data : OrderData) : Str :=
  b64Encode (iv ++ A.sealB iv (utf8Encode (jsonMarshalOrder data)))

/-- Embedding of `decryptOrderData` (src/crypto.go): base64-decode, check
the minimum length of nonce plus overhead (12 + 16), split off the IV,
open the remainder, and unmarshal the plaintext. -/
def decryptOrderData (A : AEAD) (token : Str) : Option OrderData :=
  match b64Decode token with
  | none => none
  | some packed =>
    if packed.length < 12 + 16 then none
    else
      match A.openB (packed.take 12) (packed.drop 12) with
      | none => none
      | some plaintext =>
        match utf8Decode plaintext with
        | none => none
        | some chars => jsonUnmarshalOrder chars

/-! ## Theorems for C1 and C2 -/

/-- C1: for every well-formed order record, decoding the token produced by
encoding it succeeds and returns an equal record, for any AEAD satisfying
the inverse and length laws of AES-GCM and any 12-byte IV. -/
theorem c1_token_roundtrip (A : AEAD) (iv : List Byte) (r : OrderData)
    (hiv : iv.length = 12) :
    decryptOrderData A (encryptOrderData A iv r) = some r := by
  unfold encryptOrderData decryptOrderData
  rw [b64_roundtrip]
  dsimp only
  rw [if_neg (by
    rw [List.length_append, A.sealB_length, hiv]
    omega)]
  rw [← hiv, List.take_left, List.drop_left]
  rw [A.open_sealB]
  dsimp only
  rw [utf8_roundtrip]
  dsimp only
  rw [jsonUnmarshal_marshal]

/-- C2: every token encryptOrderData produces is the URL-safe unpadded
base64 rendering of iv followed by ciphertext followed by tag, where the
iv is the 12 random bytes drawn for the call, the ciphertext is as long as
the serialized plaintext, and the tag is the 16-byte AEAD authenticator
appended after the ciphertext. -/
theorem c2_token_format (A : AEAD) (iv : List Byte) (r : OrderData)
    (hiv : iv.length = 12) :
    ∃ ct tag : List Byte, tag.length = 16 ∧
      ct.length = (utf8Encode (jsonMarshalOrder r)).length ∧
      encryptOrderData A iv r = b64Encode (iv ++ (ct ++ tag)) := by
  refine ⟨(A.sealB iv (utf8Encode (jsonMarshalOrder r))).take
      (utf8Encode (jsonMarshalOrder r)).length,
    (A.sealB iv (utf8Encode (jsonMarshalOrder r))).drop
      (utf8Encode (jsonMarshalOrder r)).length, ?_, ?_, ?_⟩
  · rw [List.length_drop, A.sealB_length]
    omega
  · rw [List.length_take, A.sealB_length]
    omega
  · unfold encryptOrderData
    rw [List.take_append_drop]

/-- A trivial AEAD satisfying the laws, used only to exercise the token
theorems at concrete inputs: sealing appends sixteen zero bytes as the
tag, opening strips them. -/
def padAEAD : AEAD where
  sealB _iv pt := pt ++ List.replicate 16 (0 : Byte)
  openB _iv ct := if 16 ≤ ct.length then some (ct.take (ct.length - 16)) else none
  sealB_length := by intro iv pt; simp
  open_sealB := by
    intro iv pt
    dsimp only
    rw [if_pos (by simp)]
    rw [show (pt ++ List.replicate 16 (0 : Byte)).length - 16 = pt.length by simp]
    rw [List.take_left]

/-- The concrete order record of scenario S1. -/
def sampleOrder : OrderData :=
  ⟨"0xabc".data, [], "ETH".data, "eth".data, "USDT".data, "eth".data,
    "1".data, "1826.34".data, "2026-01-01T00:00:00Z".data, "corr-123".data⟩

/-- C1 witness: the S1 record round-trips through the codec under the
concrete AEAD and a concrete 12-byte IV. -/
theorem c1_token_roundtrip_witness :
    decryptOrderData padAEAD
      (encryptOrderData padAEAD (List.replicate 12 (0 : Byte)) sampleOrder) =
      some sampleOrder :=
  c1_token_roundtrip padAEAD (List.replicate 12 (0 : Byte)) sampleOrder (by simp)

/-- C2 witness: the S1 record's token has the iv-ciphertext-tag shape at
the same concrete inputs. -/
theorem c2_token_format_witness :
    ∃ ct tag : List Byte, tag.length = 16 ∧
      ct.length = (utf8Encode (jsonMarshalOrder sampleOrder)).length ∧
      encryptOrderData padAEAD (List.replicate 12 (0 : Byte)) sampleOrder =
        b64Encode (List.replicate 12 (0 : Byte) ++ (ct ++ tag)) :=
  c2_token_format padAEAD (List.replicate 12 (0 : Byte)) sampleOrder (by simp)

end Zero
